import Mathlib

/-!
# Verification of `slack-feed-enricher` core components

A shallow embedding, in Lean 4, of the core pure logic of the
`slack-feed-enricher` repository:

* `slack/url_extractor.py` — URL extraction from Slack message text,
* `slack/url_resolver.py` — Google-News redirect resolution (the external
  decoder is modelled as an oracle),
* `slack/markdown_converter.py` — the mrkdwn escaping pass,
* `claude/summarizer.py` — the syntax-preserving text chunker
  (`_split_mrkdwn_text` and its helpers),
* `worker.py` — the batch orchestrator `enrich_and_reply_pending_messages`
  (external I/O is modelled by per-item oracles).

Python strings are modelled as `List Char`; Python `str.find`-style APIs
that return `-1` on failure are modelled with `Option Nat`.  Machine
integers in the sources are Python's unbounded `int`s, so `Nat` is used
directly (positions and lengths are never negative on the paths covered by
the theorems below; where Python could produce a negative intermediate
value the relevant theorem carries an explicit lower-bound hypothesis).
-/

namespace SlackFeedEnricher

/-! ## Scanning primitives: models of Python `str.find` / `str.rfind` -/

/-- Index of the first occurrence of the character `c` in `l`, if any. -/
def findCharIn (c : Char) : List Char → Option Nat
  | [] => none
  | x :: xs => if x = c then some 0 else (findCharIn c xs).map (· + 1)

/-- Model of Python `text.find(c, pos)` for a single character `c`:
the least index `i ≥ pos` with `t[i] = c`, if any. -/
def findCharFrom (c : Char) (t : List Char) (pos : Nat) : Option Nat :=
  (findCharIn c (t.drop pos)).map (pos + ·)

/-- Model of Python `text.rfind(c, 0, stop)` for a single character `c`:
the greatest index `i < stop` (and `i < t.length`) with `t[i] = c`, if any. -/
def rfindChar (c : Char) (t : List Char) (stop : Nat) : Option Nat :=
  match stop with
  | 0 => none
  | s + 1 =>
    if h : s < t.length then
      if t.get ⟨s, h⟩ = c then some s else rfindChar c t s
    else rfindChar c t s

/-- Model of Python `text.rfind(c, lo, hi)` for a single character `c`:
the greatest index `i` with `lo ≤ i < hi`, `i < t.length` and `t[i] = c`. -/
def rfindCharRange (c : Char) (t : List Char) (lo hi : Nat) : Option Nat :=
  match hi with
  | 0 => none
  | s + 1 =>
    if lo ≤ s then
      if h : s < t.length then
        if t.get ⟨s, h⟩ = c then some s else rfindCharRange c t lo s
      else rfindCharRange c t lo s
    else none

/-- Index of the first occurrence of the (non-empty) string `sub` in `l`,
if any. -/
def findSubIn (sub : List Char) : List Char → Option Nat
  | [] => if sub.isEmpty then some 0 else none
  | x :: xs =>
    if sub.isPrefixOf (x :: xs) then some 0 else (findSubIn sub xs).map (· + 1)

/-- Model of Python `text.find(sub, pos)` for a substring `sub`:
the least index `i ≥ pos` at which `sub` occurs in `t`, if any. -/
def findSub (sub t : List Char) (pos : Nat) : Option Nat :=
  (findSubIn sub (t.drop pos)).map (pos + ·)

theorem findCharIn_spec (c : Char) (l : List Char) (j : Nat)
    (h : findCharIn c l = some j) : j < l.length ∧ l.get? j = some c := by
  induction l generalizing j with
  | nil => exact absurd h (by simp [findCharIn])
  | cons x xs ih =>
    rw [findCharIn] at h
    split at h
    · next hx =>
      cases h
      exact ⟨by simp, by simp [hx]⟩
    · next hx =>
      cases hj : findCharIn c xs with
      | none => rw [hj] at h; exact absurd h (by simp)
      | some j2 =>
        rw [hj] at h
        simp only [Option.map] at h
        obtain ⟨h1, h2⟩ := ih j2 hj
        cases h
        exact ⟨by simp; omega, by simpa using h2⟩

theorem findCharFrom_spec (c : Char) (t : List Char) (pos : Nat) (i : Nat)
    (h : findCharFrom c t pos = some i) :
    pos ≤ i ∧ i < t.length ∧ t.get? i = some c := by
  rw [findCharFrom] at h
  cases hj : findCharIn c (t.drop pos) with
  | none => rw [hj] at h; exact absurd h (by simp)
  | some j =>
    rw [hj] at h
    simp only [Option.map] at h
    obtain ⟨h1, h2⟩ := findCharIn_spec c _ j hj
    simp only [List.length_drop] at h1
    rw [List.get?_drop] at h2
    cases h
    exact ⟨by omega, by omega, h2⟩

theorem rfindChar_spec (c : Char) (t : List Char) (stop : Nat) (i : Nat)
    (h : rfindChar c t stop = some i) :
    i < stop ∧ i < t.length ∧ t.get? i = some c := by
  induction stop with
  | zero => exact absurd h (by simp [rfindChar])
  | succ s ih =>
    rw [rfindChar] at h
    split at h
    · next hs =>
      split at h
      · next hc =>
        cases h
        refine ⟨by omega, hs, ?_⟩
        rw [List.get?_eq_get hs]
        exact congrArg some hc
      · have := ih h
        exact ⟨by omega, this.2.1, this.2.2⟩
    · have := ih h
      exact ⟨by omega, this.2.1, this.2.2⟩

theorem rfindCharRange_spec (c : Char) (t : List Char) (lo hi : Nat) (i : Nat)
    (h : rfindCharRange c t lo hi = some i) :
    lo ≤ i ∧ i < hi ∧ i < t.length ∧ t.get? i = some c := by
  induction hi with
  | zero => exact absurd h (by simp [rfindCharRange])
  | succ s ih =>
    rw [rfindCharRange] at h
    split at h
    · next hlo =>
      split at h
      · next hs =>
        split at h
        · next hc =>
          cases h
          refine ⟨hlo, by omega, hs, ?_⟩
          rw [List.get?_eq_get hs]
          exact congrArg some hc
        · have := ih h
          exact ⟨this.1, by omega, this.2.2⟩
      · have := ih h
        exact ⟨this.1, by omega, this.2.2⟩
    · exact absurd h (by simp)

theorem findSubIn_spec (sub l : List Char) (j : Nat) (hsub : sub ≠ [])
    (h : findSubIn sub l = some j) :
    j ≤ l.length ∧ sub.isPrefixOf (l.drop j) = true := by
  induction l generalizing j with
  | nil =>
    rw [findSubIn] at h
    rw [if_neg (by simpa using hsub)] at h
    exact absurd h (by simp)
  | cons x xs ih =>
    rw [findSubIn] at h
    split at h
    · next hpre =>
      cases h
      exact ⟨by simp, by simpa using hpre⟩
    · cases hj : findSubIn sub xs with
      | none => rw [hj] at h; exact absurd h (by simp)
      | some j2 =>
        rw [hj] at h
        simp only [Option.map] at h
        obtain ⟨h1, h2⟩ := ih j2 hj
        cases h
        exact ⟨by simp; omega, by simpa using h2⟩

theorem findSub_spec (sub t : List Char) (pos : Nat) (i : Nat) (hsub : sub ≠ [])
    (h : findSub sub t pos = some i) :
    pos ≤ i ∧ i ≤ t.length ∧ sub.isPrefixOf (t.drop i) = true := by
  rw [findSub] at h
  cases hj : findSubIn sub (t.drop pos) with
  | none => rw [hj] at h; exact absurd h (by simp)
  | some j =>
    rw [hj] at h
    simp only [Option.map] at h
    obtain ⟨h1, h2⟩ := findSubIn_spec sub _ j hsub hj
    simp only [List.length_drop] at h1
    rw [List.drop_drop] at h2
    cases h
    have hple : pos ≤ t.length := by
      by_contra hgt
      have hnil : t.drop pos = [] := List.drop_eq_nil_of_le (by omega)
      rw [hnil, findSubIn, if_neg (by simpa using hsub)] at hj
      exact absurd hj (by simp)
    exact ⟨by omega, by omega, h2⟩

theorem findSub_le_length (sub t : List Char) (pos : Nat) (i : Nat) (hsub : sub ≠ [])
    (h : findSub sub t pos = some i) : i + sub.length ≤ t.length := by
  obtain ⟨h1, hle, h2⟩ := findSub_spec sub t pos i hsub h
  have h3 : sub.length ≤ (t.drop i).length := (List.isPrefixOf_iff_prefix.mp h2).length_le
  simp only [List.length_drop] at h3
  omega

/-! ## Embedding of `slack/url_extractor.py` -/

/-- Dataclass `SlackMessage` from `slack/client.py` (the fields consumed by
the pure logic: `ts`, `text`, `reply_count`). -/
structure SlackMessage where
  ts : List Char
  text : List Char
  reply_count : Nat
deriving DecidableEq, Repr

/-- Dataclass `ExtractedUrls` from `slack/url_extractor.py`. -/
structure ExtractedUrls where
  main_url : Option (List Char) := none
  supplementary_urls : List (List Char) := []
deriving DecidableEq, Repr

/-- One regex match: its span `[start, stop)` in the scanned text and the
URL it yields (capture group 1 for `SLACK_URL_PATTERN`, the whole match for
`PLAIN_URL_PATTERN`). -/
structure UrlMatch where
  start : Nat
  stop : Nat
  url : List Char
deriving DecidableEq, Repr

/-- Character class `[^|>]` (the URL part of `SLACK_URL_PATTERN`). -/
def isUrlBodyChar (c : Char) : Bool := c ≠ '|' && c ≠ '>'

/-- Python regex `\s` on the inputs considered here (the six ASCII
whitespace characters; Python's `re` additionally matches rare Unicode
whitespace, which never occurs in the texts of the claims). -/
def isPySpace (c : Char) : Bool :=
  c = ' ' || c = '\t' || c = '\n' || c = '\r' || c = '\x0b' || c = '\x0c'

/-- Character class `[^\s<>]` (the body of `PLAIN_URL_PATTERN`). -/
def isPlainUrlChar (c : Char) : Bool := !isPySpace c && c ≠ '<' && c ≠ '>'

/-- Match of the regex piece `https?://` at the head of `l`; returns the
number of characters consumed.  Trying `https://` before `http://` is
exact: the two literals are incompatible at their fifth character, so no
backtracking is possible. -/
def matchScheme (l : List Char) : Option Nat :=
  if List.isPrefixOf ("https://".toList) l then some 8
  else if List.isPrefixOf ("http://".toList) l then some 7
  else none

/-- Match of `SLACK_URL_PATTERN = <(https?://[^|>]+)(?:\|[^>]+)?>` at the
head of `l`; returns the match length and capture group 1.  The pattern is
deterministic — `[^|>]+` and `[^>]+` cannot consume the character that has
to follow them, so greedy maximal munch is exactly Python's semantics. -/
def matchSlackUrlAt (l : List Char) : Option (Nat × List Char) :=
  match l with
  | [] => none
  | c :: rest =>
    if c = '<' then
      match matchScheme rest with
      | none => none
      | some k =>
        let afterScheme := rest.drop k
        let body := afterScheme.takeWhile isUrlBodyChar
        if body.length = 0 then none
        else
          let url := rest.take k ++ body
          match afterScheme.drop body.length with
          | '>' :: _ => some (1 + k + body.length + 1, url)
          | '|' :: rest3 =>
            let lab := rest3.takeWhile (fun c => c ≠ '>')
            if lab.length = 0 then none
            else
              match rest3.drop lab.length with
              | '>' :: _ => some (1 + k + body.length + 1 + lab.length + 1, url)
              | _ => none
          | _ => none
    else none

/-- Match of `PLAIN_URL_PATTERN = https?://[^\s<>]+` at the head of `l`. -/
def matchPlainUrlAt (l : List Char) : Option (Nat × List Char) :=
  match matchScheme l with
  | none => none
  | some k =>
    let body := (l.drop k).takeWhile isPlainUrlChar
    if body.length = 0 then none
    else some (k + body.length, l.take k ++ body)

/-- Model of `re.finditer`: scan left to right; at each index try the
(deterministic) matcher; on a match record it and resume after its end.
`fuel` bounds the number of scan steps; `t.length + 1` always suffices
because every match consumes at least one character. -/
def finditerAux (m : List Char → Option (Nat × List Char)) (t : List Char) :
    Nat → Nat → List UrlMatch
  | _, 0 => []
  | i, fuel + 1 =>
    if t.length ≤ i then []
    else
      match m (t.drop i) with
      | some (k, u) => ⟨i, i + k, u⟩ :: finditerAux m t (i + k) fuel
      | none => finditerAux m t (i + 1) fuel

/-- Scan a whole text with a matcher (`re.finditer`). -/
def finditer (m : List Char → Option (Nat × List Char)) (t : List Char) :
    List UrlMatch :=
  finditerAux m t 0 (t.length + 1)

/-- Stable insertion into a list sorted by start offset: the new element
goes before the first greater-or-equal key; since each element is inserted
into the sorted rest of the list that followed it, equal keys keep their
original relative order. -/
def insertByStart (x : Nat × List Char) : List (Nat × List Char) → List (Nat × List Char)
  | [] => [x]
  | y :: ys => if x.1 ≤ y.1 then x :: y :: ys else y :: insertByStart x ys

/-- Stable sort by start offset, modelling Python's stable
`list.sort(key=lambda x: x[0])`.  (Stability is in fact irrelevant here:
the merged match list never contains two entries with the same start.) -/
def sortByStart : List (Nat × List Char) → List (Nat × List Char)
  | [] => []
  | x :: xs => insertByStart x (sortByStart xs)

/-- Loop `for _, url in matches: if url not in seen: ...` — dedup keeping
the first occurrence, given an initial `seen` set (used by `extract_urls`
with `seen = ∅` and by `resolve_urls` with `seen = {resolved_main}`). -/
def dedupKeepFirst (seen : List (List Char)) : List (List Char) → List (List Char)
  | [] => []
  | u :: rest =>
    if u ∈ seen then dedupKeepFirst seen rest
    else u :: dedupKeepFirst (u :: seen) rest

/-- Faithful translation of `extract_urls` (`slack/url_extractor.py`,
lines 39–64), split at the `urls` local: collect the Slack-notation
matches and their spans, collect the plain matches whose start does not
fall in a Slack span, merge, sort by start offset, and deduplicate keeping
first occurrences.  `list.sort(key=lambda x: x[0])` is modelled by the
stable insertion sort `sortByStart`.  (Start offsets of the merged matches
are in fact pairwise distinct — Slack matches are disjoint, plain matches
never start inside a kept Slack span, and a Slack match starts with `<`
while a plain match starts with `h` — so any sort would realise Python's
stable sort here.) -/
def extractedUrlList (text : List Char) : List (List Char) :=
  let slackMatches := finditer matchSlackUrlAt text
  let slack_ranges := slackMatches.map (fun m => (m.start, m.stop))
  let plainMatches := (finditer matchPlainUrlAt text).filter
    (fun m => !slack_ranges.any (fun r => decide (r.1 ≤ m.start ∧ m.start < r.2)))
  let merged := slackMatches.map (fun m => (m.start, m.url)) ++
    plainMatches.map (fun m => (m.start, m.url))
  let sorted := sortByStart merged
  dedupKeepFirst [] (sorted.map (fun x => x.2))

/-- Faithful translation of `extract_urls` (`slack/url_extractor.py`,
lines 22–69): empty text gives the empty result; otherwise the collected
URL list (`extractedUrlList`) yields `main_url` (its head) and
`supplementary_urls` (its tail), or the empty result when no URL
matched. -/
def extract_urls (message : SlackMessage) : ExtractedUrls :=
  let text := message.text
  if text.isEmpty then {} else
  match extractedUrlList text with
  | [] => {}
  | u :: rest => { main_url := some u, supplementary_urls := rest }

theorem dedupKeepFirst_not_mem_seen (seen : List (List Char)) (l : List (List Char)) :
    ∀ u ∈ dedupKeepFirst seen l, u ∉ seen := by
  induction l generalizing seen with
  | nil => intro u hu; exact absurd hu (by simp [dedupKeepFirst])
  | cons x rest ih =>
    intro u hu
    rw [dedupKeepFirst] at hu
    split at hu
    · exact ih seen u hu
    · next hx =>
      rcases List.mem_cons.mp hu with h | h
      · subst h; exact hx
      · have := ih (x :: seen) u h
        intro hmem
        exact this (List.mem_cons_of_mem x hmem)

theorem dedupKeepFirst_nodup (seen : List (List Char)) (l : List (List Char)) :
    (dedupKeepFirst seen l).Nodup := by
  induction l generalizing seen with
  | nil => simp [dedupKeepFirst]
  | cons x rest ih =>
    rw [dedupKeepFirst]
    split
    · exact ih seen
    · refine List.nodup_cons.mpr ⟨?_, ih (x :: seen)⟩
      intro hmem
      exact dedupKeepFirst_not_mem_seen (x :: seen) rest x hmem (List.mem_cons_self x seen)

theorem dedupKeepFirst_sublist (seen : List (List Char)) (l : List (List Char)) :
    (dedupKeepFirst seen l).Sublist l := by
  induction l generalizing seen with
  | nil => simp [dedupKeepFirst]
  | cons x rest ih =>
    rw [dedupKeepFirst]
    split
    · exact (ih seen).cons x
    · exact (ih (x :: seen)).cons₂ x

/-! ## Embedding of `slack/url_resolver.py` -/

/-- Scheme validity test of `urllib.parse`: a scheme is a letter followed
by letters, digits, `+`, `-` or `.`. -/
def isValidScheme (l : List Char) : Bool :=
  match l with
  | [] => false
  | c :: rest =>
    c.isAlpha && rest.all (fun d => d.isAlpha || d.isDigit || d = '+' || d = '-' || d = '.')

/-- Suffix of `l` after the last occurrence of `c` (Python
`l.rpartition(c)[2]` when `c` occurs, else `l` itself). -/
def afterLastChar (c : Char) (l : List Char) : List Char :=
  match rfindChar c l l.length with
  | some i => l.drop (i + 1)
  | none => l

/-- Model of the two attributes of `urllib.parse.urlparse` consumed by
`is_google_news_url`: `hostname` and `path`.  The scheme is split off at
the first `:` when the prefix is a valid scheme; a netloc is parsed when
`//` follows and extends to the first `/`, `?` or `#`; the path extends to
the first `?` or `#`; `hostname` is the netloc without the userinfo (up to
the last `@`) and without the port (after the first `:`), lower-cased, and
is `none` when empty. -/
def urlparseHostPath (url : List Char) : Option (List Char) × List Char :=
  let rest :=
    match findCharFrom ':' url 0 with
    | some i => if isValidScheme (url.take i) then url.drop (i + 1) else url
    | none => url
  if List.isPrefixOf ("//".toList) rest then
    let afterSlashes := rest.drop 2
    let netloc := afterSlashes.takeWhile (fun c => c ≠ '/' && c ≠ '?' && c ≠ '#')
    let rest2 := afterSlashes.drop netloc.length
    let path := rest2.takeWhile (fun c => c ≠ '?' && c ≠ '#')
    let hostCore := (afterLastChar '@' netloc).takeWhile (fun c => c ≠ ':')
    (if hostCore.isEmpty then none else some (hostCore.map Char.toLower), path)
  else
    (none, rest.takeWhile (fun c => c ≠ '?' && c ≠ '#'))

/-- Faithful translation of `is_google_news_url` (`slack/url_resolver.py`,
lines 16–24): the URL is non-empty, its hostname is `news.google.com`, and
`/rss/articles/` occurs in its path. -/
def is_google_news_url (url : List Char) : Bool :=
  if url.isEmpty then false
  else
    let hp := urlparseHostPath url
    hp.1 = some ("news.google.com".toList) && (findSub ("/rss/articles/".toList) hp.2 0).isSome

/-- Outcome of one awaited call of the external decode capability
(`googlenewsdecoder.new_decoderv1` under `asyncio.wait_for`): the returned
dict — modelled by the two entries the caller consults —, a timeout, or
any other exception. -/
inductive DecodeOutcome where
  | ok (status : Bool) (decoded_url : Option (List Char))
  | timeout
  | exc
deriving DecidableEq, Repr

/-- Faithful translation of `resolve_url` (`slack/url_resolver.py`, lines
27–50); `decode` is the external decoder modelled as an oracle.  The Python
truthiness test `result.get("status") and result.get("decoded_url")` holds
exactly when `status` is true and `decoded_url` is a present, non-empty
string. -/
def resolve_url (decode : List Char → DecodeOutcome) (url : List Char) : List Char :=
  if !is_google_news_url url then url
  else
    match decode url with
    | .ok status (some d) => if status && !d.isEmpty then d else url
    | .ok _ none => url
    | .timeout => url
    | .exc => url

/-- Faithful translation of `resolve_urls` (`slack/url_resolver.py`, lines
53–76): resolve the main URL, resolve each supplementary URL in order, then
dedup the supplementary list against `{resolved_main}` keeping first
occurrences. -/
def resolve_urls (decode : List Char → DecodeOutcome) (extracted : ExtractedUrls) :
    ExtractedUrls :=
  match extracted.main_url with
  | none => extracted
  | some mu =>
    let resolved_main := resolve_url decode mu
    let resolved_supplementary := extracted.supplementary_urls.map (resolve_url decode)
    let unique_supplementary := dedupKeepFirst [resolved_main] resolved_supplementary
    { main_url := some resolved_main, supplementary_urls := unique_supplementary }

/-! ## Embedding of `slack/markdown_converter.py` -/

/-- Replacement of every occurrence of the character `c` by the string `r`
(Python `str.replace` with a single-character pattern). -/
def pyReplaceChar (c : Char) (r : List Char) : List Char → List Char
  | [] => []
  | x :: xs => (if x = c then r else [x]) ++ pyReplaceChar c r xs

/-- Faithful translation of `_escape_text` (`markdown_converter.py`, lines
101–103): replace `&` by its entity, then `<`, then `>` (in that order, so
the ampersands introduced by the later replacements are not re-escaped). -/
def _escape_text (t : List Char) : List Char :=
  pyReplaceChar '>' ("&gt;".toList)
    (pyReplaceChar '<' ("&lt;".toList)
      (pyReplaceChar '&' ("&amp;".toList) t))

/-- The backtick character (defined via a string literal for the fence
syntax used pervasively below). -/
def btk : Char := "`".toList.headI

/-- A fence marker: three backticks. -/
def fenceStr : List Char := "```".toList

/-- Length of a match, at the head of `l`, of the alternation
`code_block_pattern` of `_escape_slack_special_chars`: a fenced block
(fence, shortest run of arbitrary characters, fence — the first branch is
non-greedy, so it closes at the first later fence) or an inline code span
(backtick, one or more non-backticks, backtick).  When the head is a fence
with no later closing fence the second branch is tried and — the second
character being a backtick — necessarily fails. -/
def matchCodeSpanAt (l : List Char) : Option Nat :=
  let inline : Option Nat :=
    match l with
    | [] => none
    | c :: rest =>
      if c = btk then
        let body := rest.takeWhile (fun d => d ≠ btk)
        if body.length = 0 then none
        else
          match rest.drop body.length with
          | d :: _ => if d = btk then some (1 + body.length + 1) else none
          | [] => none
      else none
  if List.isPrefixOf fenceStr l then
    match findSub fenceStr l 3 with
    | some j => some (j + 3)
    | none => inline
  else inline

theorem takeWhile_length_le (p : Char → Bool) (l : List Char) :
    (l.takeWhile p).length ≤ l.length := by
  induction l with
  | nil => simp
  | cons x xs ih => rw [List.takeWhile_cons]; split <;> simp <;> omega

theorem matchCodeSpanAt_spec (l : List Char) (k : Nat)
    (h : matchCodeSpanAt l = some k) : 1 ≤ k ∧ k ≤ l.length := by
  have inline_spec : ∀ kk, (match l with
    | [] => none
    | c :: rest =>
      if c = btk then
        let body := rest.takeWhile (fun d => d ≠ btk)
        if body.length = 0 then none
        else
          match rest.drop body.length with
          | d :: _ => if d = btk then some (1 + body.length + 1) else none
          | [] => none
      else none : Option Nat) = some kk → 1 ≤ kk ∧ kk ≤ l.length := by
    intro kk hh
    match l with
    | [] => simp at hh
    | c :: rest =>
      simp only at hh
      split at hh
      · split at hh
        · exact absurd hh (by simp)
        · next hlen =>
          split at hh
          · next d rest2 hdrop =>
            split at hh
            · cases hh
              have hlen2 : (rest.drop (rest.takeWhile (fun d => d ≠ btk)).length).length
                  = rest2.length + 1 := by rw [hdrop]; simp
              simp only [List.length_drop] at hlen2
              have htw : (rest.takeWhile (fun d => d ≠ btk)).length ≤ rest.length :=
                takeWhile_length_le _ _
              simp only [List.length_cons]
              omega
            · exact absurd hh (by simp)
          · exact absurd hh (by simp)
      · exact absurd hh (by simp)
  rw [matchCodeSpanAt.eq_def] at h
  simp only at h
  split at h
  · split at h
    · next j hj =>
      cases h
      have h1 := findSub_spec fenceStr l 3 j (by decide) hj
      have h2 := findSub_le_length fenceStr l 3 j (by decide) hj
      have h3 : fenceStr.length = 3 := by rfl
      omega
    · exact inline_spec k h
  · exact inline_spec k h

/-- Leftmost match of `code_block_pattern` at an index `≥ i`: its span. -/
def findCodeSpanFrom (t : List Char) (i : Nat) : Option (Nat × Nat) :=
  if h : t.length ≤ i then none
  else
    match matchCodeSpanAt (t.drop i) with
    | some k => some (i, i + k)
    | none => findCodeSpanFrom t (i + 1)
termination_by t.length - i

theorem findCodeSpanFrom_spec (t : List Char) (i : Nat) (s e : Nat)
    (h : findCodeSpanFrom t i = some (s, e)) :
    i ≤ s ∧ s < e ∧ e ≤ t.length := by
  have main : ∀ n i, t.length - i ≤ n → findCodeSpanFrom t i = some (s, e) →
      i ≤ s ∧ s < e ∧ e ≤ t.length := by
    intro n
    induction n with
    | zero =>
      intro i hn hh
      rw [findCodeSpanFrom] at hh
      split at hh
      · exact absurd hh (by simp)
      · next hlen => omega
    | succ n ih =>
      intro i hn hh
      rw [findCodeSpanFrom] at hh
      split at hh
      · exact absurd hh (by simp)
      · next hlen =>
        split at hh
        · next k hk =>
          cases hh
          have := matchCodeSpanAt_spec _ _ hk
          simp only [List.length_drop] at this
          omega
        · obtain ⟨h1, h2, h3⟩ := ih (i + 1) (by omega) hh
          exact ⟨by omega, h2, h3⟩
  exact main (t.length - i) i (le_refl _) h

/-- Scanning loop of the model of `code_block_pattern.split(text)`
(`re.split` with one capturing group).  `fuel` bounds the number of found
spans; since every span is non-empty, `t.length + 1` always suffices. -/
def codeSplitAux : Nat → List Char → List (List Char)
  | 0, _ => []
  | fuel + 1, t =>
    match findCodeSpanFrom t 0 with
    | none => [t]
    | some (s, e) => t.take s :: (t.take e).drop s :: codeSplitAux fuel (t.drop e)

/-- Faithful model of
`code_block_pattern.split(text)` (`re.split` with one capturing group): the
list alternates unmatched gaps (even indices) and matched code spans (odd
indices), starting and ending with a — possibly empty — gap. -/
def codeSplit (t : List Char) : List (List Char) :=
  codeSplitAux (t.length + 1) t

/-- Test of Python `text.startswith(("http://", "https://", "mailto:"))`. -/
def startsWithLinkScheme (l : List Char) : Bool :=
  List.isPrefixOf ("http://".toList) l || List.isPrefixOf ("https://".toList) l ||
    List.isPrefixOf ("mailto:".toList) l

/-- The `while True` scan of `_escape_non_code_part` that finds
`search_end`: the first `<` at an index `≥ searchFrom` that opens a Slack
link (is followed by `http://`, `https://` or `mailto:`), or the text
length when there is none. -/
def findNextLinkOpen (text : List Char) (searchFrom : Nat) : Nat :=
  match h : findCharFrom '<' text searchFrom with
  | none => text.length
  | some no =>
    if startsWithLinkScheme (text.drop (no + 1)) then no
    else findNextLinkOpen text (no + 1)
termination_by text.length - searchFrom
decreasing_by
  have := findCharFrom_spec '<' text searchFrom no h
  omega

/-- Faithful translation of the scanning loop of `_escape_non_code_part`
(`markdown_converter.py`, lines 34–98), with the current position `pos` as
the recursion argument; Python's `text[a:b]` is written
`(text.take b).drop a`.  `fuel` bounds the number of iterations; the
position strictly increases at every iteration, so `text.length + 1`
always suffices. -/
def escapeNonCodeAux (text : List Char) : Nat → Nat → List Char
  | 0, _ => []
  | fuel + 1, pos =>
    if text.length ≤ pos then []
    else
      match findCharFrom '<' text pos with
      | none => _escape_text (text.drop pos)
      | some openPos =>
        let pre := _escape_text ((text.take openPos).drop pos)
        match findCharFrom '|' text (openPos + 1),
              findCharFrom '>' text (openPos + 1) with
        | some pipePos, some closePos =>
          if pipePos < closePos then
            let searchEnd := findNextLinkOpen text (pipePos + 1)
            match rfindCharRange '>' text (pipePos + 1) searchEnd with
            | some finalClose =>
              pre ++ ('<' :: (text.take pipePos).drop (openPos + 1)) ++
                ('|' :: _escape_text ((text.take finalClose).drop (pipePos + 1))) ++
                ['>'] ++ escapeNonCodeAux text fuel (finalClose + 1)
            | none =>
              pre ++ _escape_text ['<'] ++ escapeNonCodeAux text fuel (openPos + 1)
          else
            let inner := (text.take closePos).drop (openPos + 1)
            if startsWithLinkScheme inner then
              pre ++ (text.take (closePos + 1)).drop openPos ++
                escapeNonCodeAux text fuel (closePos + 1)
            else
              pre ++ _escape_text ['<'] ++ escapeNonCodeAux text fuel (openPos + 1)
        | none, some closePos =>
          let inner := (text.take closePos).drop (openPos + 1)
          if startsWithLinkScheme inner then
            pre ++ (text.take (closePos + 1)).drop openPos ++
              escapeNonCodeAux text fuel (closePos + 1)
          else
            pre ++ _escape_text ['<'] ++ escapeNonCodeAux text fuel (openPos + 1)
        | _, none =>
          pre ++ _escape_text ['<'] ++ escapeNonCodeAux text fuel (openPos + 1)

/-- Faithful translation of `_escape_non_code_part`. -/
def _escape_non_code_part (text : List Char) : List Char :=
  escapeNonCodeAux text (text.length + 1) 0

/-- Instrumented segments of `_escape_non_code_part`'s scan: each piece of
its `result` list is either an escaped run of plain text, a re-emitted
pipe link (destination kept verbatim, label escaped), or a verbatim
plain link token. -/
inductive EscSeg where
  | plain (s : List Char)
  | link (url label : List Char)
  | bare (tok : List Char)
deriving DecidableEq, Repr

/-- The output text a segment contributes — exactly the string the
corresponding `result.append` of `_escape_non_code_part` emits. -/
def renderEscSeg : EscSeg → List Char
  | .plain s => _escape_text s
  | .link url label => '<' :: (url ++ '|' :: (_escape_text label ++ ['>']))
  | .bare tok => tok

/-- The source text a segment covers. -/
def srcEscSeg : EscSeg → List Char
  | .plain s => s
  | .link url label => '<' :: (url ++ '|' :: (label ++ ['>']))
  | .bare tok => tok

/-- Instrumented version of `escapeNonCodeAux`: the same recursion, same
branch conditions and same positions, recording the parsed segments
instead of the built string. -/
def escapeSegsAux (text : List Char) : Nat → Nat → List EscSeg
  | 0, _ => []
  | fuel + 1, pos =>
    if text.length ≤ pos then []
    else
      match findCharFrom '<' text pos with
      | none => [.plain (text.drop pos)]
      | some openPos =>
        let pre : EscSeg := .plain ((text.take openPos).drop pos)
        match findCharFrom '|' text (openPos + 1),
              findCharFrom '>' text (openPos + 1) with
        | some pipePos, some closePos =>
          if pipePos < closePos then
            let searchEnd := findNextLinkOpen text (pipePos + 1)
            match rfindCharRange '>' text (pipePos + 1) searchEnd with
            | some finalClose =>
              pre :: .link ((text.take pipePos).drop (openPos + 1))
                  ((text.take finalClose).drop (pipePos + 1)) ::
                escapeSegsAux text fuel (finalClose + 1)
            | none =>
              pre :: .plain ['<'] :: escapeSegsAux text fuel (openPos + 1)
          else
            let inner := (text.take closePos).drop (openPos + 1)
            if startsWithLinkScheme inner then
              pre :: .bare ((text.take (closePos + 1)).drop openPos) ::
                escapeSegsAux text fuel (closePos + 1)
            else
              pre :: .plain ['<'] :: escapeSegsAux text fuel (openPos + 1)
        | none, some closePos =>
          let inner := (text.take closePos).drop (openPos + 1)
          if startsWithLinkScheme inner then
            pre :: .bare ((text.take (closePos + 1)).drop openPos) ::
              escapeSegsAux text fuel (closePos + 1)
          else
            pre :: .plain ['<'] :: escapeSegsAux text fuel (openPos + 1)
        | _, none =>
          pre :: .plain ['<'] :: escapeSegsAux text fuel (openPos + 1)

/-- Faithful translation of `_escape_slack_special_chars`
(`markdown_converter.py`, lines 12–31): split on code spans, escape the
even-indexed (non-matched) parts, keep the odd-indexed (matched code)
parts verbatim, and join. -/
def _escape_slack_special_chars (text : List Char) : List Char :=
  (((codeSplit text).enum).map
    (fun p => if p.1 % 2 = 1 then p.2 else _escape_non_code_part p.2)).flatten

/-- Full-escapedness of a string: it contains no raw `<` or `>`, and
every `&` in it opens one of the three entities.  This is the shape
`_escape_text` guarantees for the text outside protected spans and link
destinations. -/
def properlyEscaped : List Char → Bool
  | [] => true
  | c :: rest =>
    if c = '<' then false
    else if c = '>' then false
    else if c = '&' then
      if List.isPrefixOf ("amp;".toList) rest then properlyEscaped (rest.drop 4)
      else if List.isPrefixOf ("lt;".toList) rest then properlyEscaped (rest.drop 3)
      else if List.isPrefixOf ("gt;".toList) rest then properlyEscaped (rest.drop 3)
      else false
    else properlyEscaped rest
termination_by l => l.length
decreasing_by
  all_goals simp only [List.length_drop, List.length_cons]
  all_goals omega

/-! ## Embedding of the chunker of `claude/summarizer.py` -/

/-- Faithful translation of the scanning loop of `_find_code_block_ranges`
(`summarizer.py`, lines 180–199): greedy left-to-right pairing of fence
markers; an unterminated opening fence extends to the end of the text. -/
def findCodeBlockRangesAux (t : List Char) : Nat → Nat → List (Nat × Nat)
  | 0, _ => []
  | fuel + 1, pos =>
    match findSub fenceStr t pos with
    | none => []
    | some s =>
      match findSub fenceStr t (s + 3) with
      | none => [(s, t.length)]
      | some e => (s, e + 3) :: findCodeBlockRangesAux t fuel (e + 3)

/-- Faithful translation of `_find_code_block_ranges`; every iteration of
the `while` loop advances `pos` by at least three, so `t.length + 1`
iterations always suffice. -/
def _find_code_block_ranges (t : List Char) : List (Nat × Nat) :=
  findCodeBlockRangesAux t (t.length + 1) 0

/-- Faithful translation of `_is_inside_code_block` (`summarizer.py`,
lines 202–204). -/
def _is_inside_code_block (pos : Nat) (codeRanges : List (Nat × Nat)) : Bool :=
  codeRanges.any (fun r => decide (r.1 ≤ pos ∧ pos < r.2))

/-- Faithful translation of `_is_inside_slack_link` (`summarizer.py`,
lines 207–215): last `<` before `pos`, then first `>` from there; inside
iff that `>` is at an index `≥ pos`. -/
def _is_inside_slack_link (t : List Char) (pos : Nat) : Bool :=
  match rfindChar '<' t pos with
  | none => false
  | some lastOpen =>
    match findCharFrom '>' t lastOpen with
    | none => false
    | some nextClose => decide (pos ≤ nextClose)

/-- The `while pos > 0` loop of `_find_safe_newline` (`summarizer.py`,
lines 218–241): repeatedly take the last newline strictly before the
current bound; answer it if it is outside every code range (indices are
relative to `remaining`, the ranges to the original text, whence the
`offset` shift); a newline at index 0, or none at all, yields no result
(Python returns `-1`). -/
def findSafeNewlineLoop (remaining : List Char) (codeRanges : List (Nat × Nat))
    (offset : Nat) : Nat → Nat → Option Nat
  | 0, _ => none
  | fuel + 1, pos =>
    match rfindChar '\n' remaining pos with
    | none => none
    | some p =>
      if p = 0 then none
      else if !_is_inside_code_block (offset + p) codeRanges then some p
      else if p - 1 = 0 then none
      else findSafeNewlineLoop remaining codeRanges offset fuel (p - 1)

/-- Faithful translation of `_find_safe_newline`; the loop bound shrinks
by at least one on every iteration, so `searchEnd` iterations of fuel
always suffice. -/
def _find_safe_newline (remaining : List Char) (maxLength : Nat)
    (codeRanges : List (Nat × Nat)) (offset : Nat) : Option Nat :=
  let searchEnd := min maxLength remaining.length
  if searchEnd = 0 then none
  else findSafeNewlineLoop remaining codeRanges offset searchEnd searchEnd

/-- Recognition of one of the three entities at index `i` of `t`, in the
source's order of tests (`&amp;`, `&lt;`, `&gt;`); returns its length.  At
most one of the three literals can match at a given index (their second
characters differ), so this is exactly the inner `for entity in (...)`
loop of `_adjust_for_entity_boundary`. -/
def entityAt (t : List Char) (i : Nat) : Option Nat :=
  if List.isPrefixOf ("&amp;".toList) (t.drop i) then some 5
  else if List.isPrefixOf ("&lt;".toList) (t.drop i) then some 4
  else if List.isPrefixOf ("&gt;".toList) (t.drop i) then some 4
  else none

/-- The `for offset in range(5)` loop of `_adjust_for_entity_boundary`
(`summarizer.py`, lines 337–363): examine `check_pos = pos - offset` for
`offset = 0, 1, …, 4`; stop (returning `pos` unchanged) when `check_pos`
would be negative; skip positions beyond the text; when an entity starts
at `check_pos` and strictly crosses `pos` (`entity_end > pos`), return
`check_pos`. -/
def adjustEntityLoop (t : List Char) (pos : Nat) : List Nat → Nat
  | [] => pos
  | offset :: rest =>
    if pos < offset then pos
    else
      let checkPos := pos - offset
      if t.length ≤ checkPos then adjustEntityLoop t pos rest
      else if t.get? checkPos = some '&' then
        match entityAt t checkPos with
        | some elen =>
          if pos < checkPos + elen then checkPos else adjustEntityLoop t pos rest
        | none => adjustEntityLoop t pos rest
      else adjustEntityLoop t pos rest

/-- Faithful translation of `_adjust_for_entity_boundary`
(`range(5)` is the explicit list of offsets). -/
def _adjust_for_entity_boundary (t : List Char) (pos : Nat) : Nat :=
  adjustEntityLoop t pos [0, 1, 2, 3, 4]

/-- The split position chosen by the forced-split path of
`_split_mrkdwn_text` (`summarizer.py`, lines 293–316), starting from the
tentative position `sp0 = effective_max - close_cost`: move off a Slack
link (back to the link's opening `<` when that is not at the chunk start,
else forward past the link's closing `>`), then off a character entity. -/
def forcedSplitPos (remaining : List Char) (sp0 : Nat) : Nat :=
  let sp1 :=
    if _is_inside_slack_link remaining sp0 then
      match rfindChar '<' remaining sp0 with
      | some linkStart =>
        if 0 < linkStart then linkStart
        else
          match findCharFrom '>' remaining sp0 with
          | some linkEnd => min (linkEnd + 1) remaining.length
          | none => sp0
      | none => sp0
    else sp0
  _adjust_for_entity_boundary remaining sp1

/-- The `while remaining` loop of `_split_mrkdwn_text` (`summarizer.py`,
lines 262–334).  `fuel` bounds the number of iterations; since every
iteration (under the side conditions of the theorems below) consumes at
least one character of `remaining`, `remaining.length + 1` suffices.
The reopen marker prepended to a chunk is fence-then-newline and the close
marker appended to a chunk is newline-then-fence, both of length 4 —
exactly Python's `fence_len = 4`. -/
def splitChunksStr (codeRanges : List (Nat × Nat)) (maxLength : Nat) :
    Nat → List Char → Nat → Bool → List (List Char)
  | 0, _, _, _ => []
  | fuel + 1, remaining, offset, inCode =>
    if remaining.isEmpty then []
    else
      let reopenCost := if inCode then 4 else 0
      let effectiveMax := maxLength - reopenCost
      if remaining.length ≤ effectiveMax then
        [(if inCode then fenceStr ++ ['\n'] else []) ++ remaining]
      else
        match _find_safe_newline remaining effectiveMax codeRanges offset with
        | some newlinePos =>
          ((if inCode then fenceStr ++ ['\n'] else []) ++ remaining.take newlinePos) ::
            splitChunksStr codeRanges maxLength fuel (remaining.drop (newlinePos + 1))
              (offset + (newlinePos + 1)) false
        | none =>
          let willSplitInCode :=
            _is_inside_code_block (offset + min effectiveMax remaining.length) codeRanges
          let closeCost := if willSplitInCode then 4 else 0
          let splitPos := forcedSplitPos remaining (effectiveMax - closeCost)
          if willSplitInCode then
            ((if inCode then fenceStr ++ ['\n'] else []) ++ remaining.take splitPos ++
                '\n' :: fenceStr) ::
              splitChunksStr codeRanges maxLength fuel (remaining.drop splitPos)
                (offset + splitPos) true
          else
            ((if inCode then fenceStr ++ ['\n'] else []) ++ remaining.take splitPos) ::
              splitChunksStr codeRanges maxLength fuel (remaining.drop splitPos)
                (offset + splitPos) false

/-- Faithful translation of `_split_mrkdwn_text` (`summarizer.py`, lines
244–334); `maxLength` is its `max_length` parameter, whose Python default
is 3000. -/
def _split_mrkdwn_text (text : List Char) (maxLength : Nat) : List (List Char) :=
  if text.length ≤ maxLength then [text]
  else
    splitChunksStr (_find_code_block_ranges text) maxLength (text.length + 1) text 0 false

/-- Instrumented chunk of the chunker: the slice `body` of the source text
it covers, whether a reopen marker was prepended, whether a close marker
was appended, and whether a newline of the source was consumed right after
`body` (newline split). -/
structure AnnChunk where
  reopen : Bool
  body : List Char
  closeFence : Bool
  ateNewline : Bool
deriving DecidableEq, Repr

/-- The emitted text of an instrumented chunk — exactly the string built
by the corresponding branch of `_split_mrkdwn_text`. -/
def renderChunk (c : AnnChunk) : List Char :=
  (if c.reopen then fenceStr ++ ['\n'] else []) ++ c.body ++
    (if c.closeFence then '\n' :: fenceStr else [])

/-- The source text covered by an instrumented chunk: its body plus the
newline consumed at a newline split. -/
def restoreChunk (c : AnnChunk) : List Char :=
  c.body ++ (if c.ateNewline then ['\n'] else [])

/-- Instrumented version of `splitChunksStr`: the same recursion, branch
conditions and split positions, recording for each chunk its source slice
and which fence markers were injected instead of the built string. -/
def splitChunksAnn (codeRanges : List (Nat × Nat)) (maxLength : Nat) :
    Nat → List Char → Nat → Bool → List AnnChunk
  | 0, _, _, _ => []
  | fuel + 1, remaining, offset, inCode =>
    if remaining.isEmpty then []
    else
      let reopenCost := if inCode then 4 else 0
      let effectiveMax := maxLength - reopenCost
      if remaining.length ≤ effectiveMax then
        [⟨inCode, remaining, false, false⟩]
      else
        match _find_safe_newline remaining effectiveMax codeRanges offset with
        | some newlinePos =>
          ⟨inCode, remaining.take newlinePos, false, true⟩ ::
            splitChunksAnn codeRanges maxLength fuel (remaining.drop (newlinePos + 1))
              (offset + (newlinePos + 1)) false
        | none =>
          let willSplitInCode :=
            _is_inside_code_block (offset + min effectiveMax remaining.length) codeRanges
          let closeCost := if willSplitInCode then 4 else 0
          let splitPos := forcedSplitPos remaining (effectiveMax - closeCost)
          if willSplitInCode then
            ⟨inCode, remaining.take splitPos, true, false⟩ ::
              splitChunksAnn codeRanges maxLength fuel (remaining.drop splitPos)
                (offset + splitPos) true
          else
            ⟨inCode, remaining.take splitPos, false, false⟩ ::
              splitChunksAnn codeRanges maxLength fuel (remaining.drop splitPos)
                (offset + splitPos) false

/-! ## Embedding of `worker.py` -/

/-- Dataclass `EnrichAndReplyResult` (`worker.py`, lines 22–31). -/
structure EnrichAndReplyResult where
  processed_count : Nat
  success_count : Nat
  error_count : Nat
  skipped_count : Nat
  timed_out : Bool := false
  remaining_count : Nat := 0
deriving DecidableEq, Repr

/-- Behaviour of the external world while one candidate message is
processed: the wall-clock time consumed by the item's awaited calls
(`duration`), and whether the enrichment-agent body
(`fetch_and_summarize`) and the posting of the three replies
(`send_enriched_messages`, including its two `asyncio.sleep(1.0)` delays)
would complete or raise, were their call sites well formed.  The bookmark
lookup (`hatebu_client.fetch_entry`) is wrapped in its own `try/except`
inside the loop and can influence neither control flow nor counters, so it
needs no oracle of its own. -/
structure ItemEnv where
  duration : Nat
  agentOk : Bool
  postOk : Bool
deriving DecidableEq, Repr

/-- Outcome of the `try` block of one iteration of the candidate loop. -/
inductive ItemOutcome where
  | success
  | skipped
  | errored
deriving DecidableEq, Repr

/-- The parameter names of `fetch_and_summarize` as defined in the snapshot
(`summarizer.py`, lines 435–439): `query_func`, `url`,
`supplementary_urls` — and nothing else. -/
def fetchAndSummarizeParams : List (List Char) :=
  ["query_func".toList, "url".toList, "supplementary_urls".toList]

/-- The keyword-argument names the orchestrator passes at the agent call
site (`worker.py`, lines 157–159): only `hatebu_entry=hatebu_entry` is
passed by keyword (the first three arguments are positional). -/
def workerAgentCallKwargs : List (List Char) :=
  ["hatebu_entry".toList]

/-- Python raises `TypeError` during argument binding when a call passes a
keyword argument the callee does not accept; for an `async def` this
happens at the call expression itself, before the coroutine body runs, so
the exception is raised inside the loop's `try`.  True in this snapshot:
`hatebu_entry` is not among `fetch_and_summarize`'s parameters. -/
def agentCallRaisesTypeError : Bool :=
  workerAgentCallKwargs.any (fun k => !(fetchAndSummarizeParams.contains k))

/-- The parameter names of `SlackClient.post_thread_reply` as defined in
the snapshot (`client.py`, line 72): `channel_id`, `thread_ts`, `text`
(`self` is bound by the method receiver). -/
def postThreadReplyParams : List (List Char) :=
  ["channel_id".toList, "thread_ts".toList, "text".toList]

/-- The keyword-argument names `send_enriched_messages` passes at each of
its three posting call sites (`worker.py`, lines 61–66, 71–76, 81–86):
`channel_id`, `thread_ts`, `text`, `blocks`. -/
def sendRepliesCallKwargs : List (List Char) :=
  ["channel_id".toList, "thread_ts".toList, "text".toList, "blocks".toList]

/-- Likewise, the posting call sites pass `blocks=`, which
`post_thread_reply` does not accept, so each posting call would raise
`TypeError` at argument binding. -/
def postCallRaisesTypeError : Bool :=
  sendRepliesCallKwargs.any (fun k => !(postThreadReplyParams.contains k))

/-- Body of one iteration of the candidate loop
(`enrich_and_reply_pending_messages`, `worker.py` lines 138–169): extract
URLs (no main URL ⇒ skip), resolve them (no main URL ⇒ skip), call the
enrichment agent, post the three replies; an exception from the agent call
or from posting is caught by the `except` and counts as an error.  The two
awaited calls are modelled faithfully to their call sites: each first
binds its arguments — raising `TypeError` when a keyword argument is not
accepted, which in this snapshot happens deterministically at the agent
call (`hatebu_entry=`) and would happen at the posting calls (`blocks=`) —
and only then defers to the environment's oracle for what the callee's
body would do. -/
def processItem (decode : List Char → DecodeOutcome) (message : SlackMessage)
    (env : ItemEnv) : ItemOutcome :=
  let extracted := extract_urls message
  match extracted.main_url with
  | none => .skipped
  | some _ =>
    let resolved := resolve_urls decode extracted
    match resolved.main_url with
    | none => .skipped
    | some _ =>
      if agentCallRaisesTypeError then .errored
      else if env.agentOk then
        (if postCallRaisesTypeError then .errored
         else if env.postOk then .success else .errored)
      else .errored

/-- The candidate loop of `enrich_and_reply_pending_messages` (`worker.py`
lines 120–176).  `time.time() - start_time` is modelled by `elapsed`, the
sum of the durations of the items processed so far (wall-clock time
advances only inside an item's awaited calls); `i` is the `enumerate`
index and `total` the number of fetched messages.  The budget check
`elapsed >= timeout` happens at the top of each iteration, before the
item's pipeline runs. -/
def workerLoop (decode : List Char → DecodeOutcome) :
    List (SlackMessage × ItemEnv) → Option Nat → Nat → Nat → Nat → Nat → Nat → Nat →
    EnrichAndReplyResult
  | [], _, _, _, succ, err, skip, total =>
    { processed_count := total, success_count := succ, error_count := err,
      skipped_count := skip }
  | (msg, env) :: rest, timeout, i, elapsed, succ, err, skip, total =>
    let timedOut := match timeout with
      | some tmo => decide (tmo ≤ elapsed)
      | none => false
    if timedOut then
      { processed_count := i, success_count := succ, error_count := err,
        skipped_count := skip, timed_out := true, remaining_count := total - i }
    else
      match processItem decode msg env with
      | .success =>
        workerLoop decode rest timeout (i + 1) (elapsed + env.duration) (succ + 1) err skip total
      | .skipped =>
        workerLoop decode rest timeout (i + 1) (elapsed + env.duration) succ err (skip + 1) total
      | .errored =>
        workerLoop decode rest timeout (i + 1) (elapsed + env.duration) succ (err + 1) skip total

/-- Faithful model of `enrich_and_reply_pending_messages` (`worker.py`,
lines 91–176): the fetched messages, paired with the external behaviour of
each item's awaited calls, are an input; the counters start at zero and the
clock starts at the moment the loop begins. -/
def enrich_and_reply_pending_messages (decode : List Char → DecodeOutcome)
    (items : List (SlackMessage × ItemEnv)) (timeout : Option Nat) :
    EnrichAndReplyResult :=
  workerLoop decode items timeout 0 0 0 0 0 items.length

/-! ## Helper lemmas about the chunker -/

theorem take_cons_drop (l : List Char) (n : Nat) (c : Char) (h : l.get? n = some c) :
    l.take n ++ c :: l.drop (n + 1) = l := by
  have hlt : n < l.length := by
    by_contra hge
    rw [List.get?_eq_none.mpr (by omega)] at h
    exact absurd h (by simp)
  have h3 : l.get ⟨n, hlt⟩ = c := by
    have h2 := List.get?_eq_get hlt
    rw [h] at h2
    injection h2.symm
  have hdrop : l.drop n = c :: l.drop (n + 1) := by
    rw [List.drop_eq_getElem_cons hlt, ← h3]
    simp
  conv_rhs => rw [← List.take_append_drop n l]
  rw [hdrop]

theorem findSafeNewlineLoop_spec (remaining : List Char) (codeRanges : List (Nat × Nat))
    (offset : Nat) :
    ∀ fuel pos p, findSafeNewlineLoop remaining codeRanges offset fuel pos = some p →
      0 < p ∧ p < remaining.length ∧ remaining.get? p = some '\n' := by
  intro fuel
  induction fuel with
  | zero => intro pos p h; exact absurd h (by simp [findSafeNewlineLoop])
  | succ fuel ih =>
    intro pos p h
    rw [findSafeNewlineLoop] at h
    split at h
    · exact absurd h (by simp)
    · next q hq =>
      obtain ⟨hq1, hq2, hq3⟩ := rfindChar_spec '\n' remaining pos q hq
      split at h
      · exact absurd h (by simp)
      · split at h
        · cases h
          exact ⟨by omega, hq2, hq3⟩
        · split at h
          · exact absurd h (by simp)
          · exact ih (q - 1) p h

theorem find_safe_newline_spec (remaining : List Char) (maxLength : Nat)
    (codeRanges : List (Nat × Nat)) (offset : Nat) (p : Nat)
    (h : _find_safe_newline remaining maxLength codeRanges offset = some p) :
    0 < p ∧ p < remaining.length ∧ remaining.get? p = some '\n' := by
  rw [_find_safe_newline] at h
  split at h
  · exact absurd h (by simp)
  · exact findSafeNewlineLoop_spec remaining codeRanges offset _ _ p h

theorem prefix_drop_get (lit t : List Char) (cp : Nat)
    (hp : lit.isPrefixOf (t.drop cp) = true) (k : Nat) (h1 : cp ≤ k)
    (h2 : k < cp + lit.length) : t.get? k = lit.get? (k - cp) := by
  obtain ⟨s, hs⟩ := List.isPrefixOf_iff_prefix.mp hp
  have hk : t.get? k = (t.drop cp).get? (k - cp) := by
    rw [List.get?_drop]
    congr 1
    omega
  rw [hk, ← hs, List.get?_append (by omega)]

theorem entityAt_spec (t : List Char) (cp elen : Nat) (h : entityAt t cp = some elen) :
    cp + elen ≤ t.length ∧
    ∀ k, cp ≤ k → k < cp + elen → t.get? k ≠ some '<' ∧ t.get? k ≠ some '>' := by
  have main : ∀ lit : List Char, lit.isPrefixOf (t.drop cp) = true → lit ≠ [] →
      elen = lit.length →
      (∀ i, i < lit.length → lit.get? i ≠ some '<' ∧ lit.get? i ≠ some '>') →
      cp + elen ≤ t.length ∧
      ∀ k, cp ≤ k → k < cp + elen → t.get? k ≠ some '<' ∧ t.get? k ≠ some '>' := by
    intro lit hp hne helen hchars
    have hlen : lit.length ≤ (t.drop cp).length :=
      (List.isPrefixOf_iff_prefix.mp hp).length_le
    simp only [List.length_drop] at hlen
    have hcple : cp ≤ t.length := by
      by_contra hgt
      have : t.drop cp = [] := List.drop_eq_nil_of_le (by omega)
      rw [this] at hp
      have : lit = [] := by
        cases lit with
        | nil => rfl
        | cons a as => exact absurd hp (by simp [List.isPrefixOf])
      exact hne this
    refine ⟨by omega, ?_⟩
    intro k hk1 hk2
    rw [prefix_drop_get lit t cp hp k hk1 (by omega)]
    exact hchars (k - cp) (by omega)
  rw [entityAt] at h
  split at h
  · next hp =>
    cases h
    exact main _ hp (by decide) (by decide) (by decide)
  · split at h
    · next hp =>
      cases h
      exact main _ hp (by decide) (by decide) (by decide)
    · split at h
      · next hp =>
        cases h
        exact main _ hp (by decide) (by decide) (by decide)
      · exact absurd h (by simp)

theorem adjustEntityLoop_cases (t : List Char) (pos : Nat) :
    ∀ offs : List Nat, adjustEntityLoop t pos offs = pos ∨
      ∃ off ∈ offs, ∃ elen, off ≤ pos ∧ pos - off < t.length ∧
        entityAt t (pos - off) = some elen ∧ pos < (pos - off) + elen ∧
        adjustEntityLoop t pos offs = pos - off := by
  intro offs
  induction offs with
  | nil => left; rfl
  | cons off rest ih =>
    simp only [adjustEntityLoop]
    split
    · left; rfl
    · next hposoff =>
      split
      · next hlen =>
        rcases ih with h | ⟨off2, hmem, elen, h1, h2, h3, h4, h5⟩
        · left; exact h
        · right; exact ⟨off2, List.mem_cons_of_mem _ hmem, elen, h1, h2, h3, h4, h5⟩
      · next hlen =>
        split
        · next hamp =>
          cases hent : entityAt t (pos - off) with
          | none =>
            simp only [hent]
            rcases ih with h | ⟨off2, hmem, elen, h1, h2, h3, h4, h5⟩
            · left; exact h
            · right; exact ⟨off2, List.mem_cons_of_mem _ hmem, elen, h1, h2, h3, h4, h5⟩
          | some elen =>
            simp only [hent]
            split
            · next hcross =>
              right
              exact ⟨off, List.mem_cons_self _ _, elen, by omega, by omega, hent, hcross, rfl⟩
            · rcases ih with h | ⟨off2, hmem, elen2, h1, h2, h3, h4, h5⟩
              · left; exact h
              · right; exact ⟨off2, List.mem_cons_of_mem _ hmem, elen2, h1, h2, h3, h4, h5⟩
        · rcases ih with h | ⟨off2, hmem, elen, h1, h2, h3, h4, h5⟩
          · left; exact h
          · right; exact ⟨off2, List.mem_cons_of_mem _ hmem, elen, h1, h2, h3, h4, h5⟩

theorem adjust_ge (t : List Char) (pos : Nat) :
    pos - 4 ≤ _adjust_for_entity_boundary t pos ∧ _adjust_for_entity_boundary t pos ≤ pos := by
  rw [_adjust_for_entity_boundary]
  rcases adjustEntityLoop_cases t pos [0, 1, 2, 3, 4] with h | ⟨off, hmem, elen, h1, h2, h3, h4, h5⟩
  · rw [h]; omega
  · rw [h5]
    have hoff : off = 0 ∨ off = 1 ∨ off = 2 ∨ off = 3 ∨ off = 4 := by simpa using hmem
    rcases hoff with h | h | h | h | h <;> omega

theorem adjust_eq_of_open_char (t : List Char) (pos : Nat)
    (h : t.get? pos = some '<') : _adjust_for_entity_boundary t pos = pos := by
  rw [_adjust_for_entity_boundary]
  rcases adjustEntityLoop_cases t pos [0, 1, 2, 3, 4] with hc | ⟨off, hmem, elen, h1, h2, h3, h4, h5⟩
  · exact hc
  · obtain ⟨hlen, hchars⟩ := entityAt_spec t (pos - off) elen h3
    rcases Nat.eq_zero_or_pos off with hz | hpos
    · subst hz
      simpa using h5
    · exact absurd h (hchars pos (by omega) h4).1

theorem adjust_eq_of_close_char (t : List Char) (pos : Nat) (hpos : 1 ≤ pos)
    (h : t.get? (pos - 1) = some '>') : _adjust_for_entity_boundary t pos = pos := by
  rw [_adjust_for_entity_boundary]
  rcases adjustEntityLoop_cases t pos [0, 1, 2, 3, 4] with hc | ⟨off, hmem, elen, h1, h2, h3, h4, h5⟩
  · exact hc
  · obtain ⟨hlen, hchars⟩ := entityAt_spec t (pos - off) elen h3
    rcases Nat.eq_zero_or_pos off with hz | hposoff
    · subst hz
      simpa using h5
    · exact absurd h (hchars (pos - 1) (by omega) (by omega)).2

theorem adjust_eq_of_ge_length (t : List Char) (pos : Nat) (h : t.length ≤ pos) :
    _adjust_for_entity_boundary t pos = pos := by
  rw [_adjust_for_entity_boundary]
  rcases adjustEntityLoop_cases t pos [0, 1, 2, 3, 4] with hc | ⟨off, hmem, elen, h1, h2, h3, h4, h5⟩
  · exact hc
  · obtain ⟨hlen, _⟩ := entityAt_spec t (pos - off) elen h3
    omega

theorem forcedSplitPos_pos (remaining : List Char) (sp0 : Nat) (h5 : 5 ≤ sp0) :
    1 ≤ forcedSplitPos remaining sp0 := by
  have hge0 := adjust_ge remaining sp0
  simp only [forcedSplitPos]
  split
  · split
    · next ls hls =>
      obtain ⟨hls1, hls2, hls3⟩ := rfindChar_spec '<' remaining sp0 ls hls
      split
      · next hlspos =>
        rw [adjust_eq_of_open_char remaining ls hls3]
        omega
      · next hlspos =>
        split
        · next le hle =>
          obtain ⟨hle1, hle2, hle3⟩ := findCharFrom_spec '>' remaining sp0 le hle
          have hmin : min (le + 1) remaining.length = le + 1 := by omega
          rw [hmin, adjust_eq_of_close_char remaining (le + 1) (by omega) (by simpa using hle3)]
          omega
        · omega
    · omega
  · omega

theorem splitChunksStr_eq_render (codeRanges : List (Nat × Nat)) (maxLength : Nat) :
    ∀ fuel remaining offset inCode,
      splitChunksStr codeRanges maxLength fuel remaining offset inCode =
        (splitChunksAnn codeRanges maxLength fuel remaining offset inCode).map renderChunk := by
  intro fuel
  induction fuel with
  | zero => intro remaining offset inCode; rfl
  | succ fuel ih =>
    intro remaining offset inCode
    by_cases hemp : remaining.isEmpty = true
    · simp [splitChunksStr, splitChunksAnn, hemp]
    · by_cases hlen : remaining.length ≤ maxLength - (if inCode = true then 4 else 0)
      · simp [splitChunksStr, splitChunksAnn, hemp, hlen, renderChunk]
      · cases hnl : _find_safe_newline remaining
          (maxLength - (if inCode = true then 4 else 0)) codeRanges offset with
        | some p =>
          simp [splitChunksStr, splitChunksAnn, hemp, hlen, hnl, renderChunk, ih]
        | none =>
          by_cases hwsc : _is_inside_code_block
            (offset + min (maxLength - (if inCode = true then 4 else 0)) remaining.length)
            codeRanges = true
          · simp [splitChunksStr, splitChunksAnn, hemp, hlen, hnl, hwsc, renderChunk, ih]
          · simp [splitChunksStr, splitChunksAnn, hemp, hlen, hnl, hwsc, renderChunk, ih]

theorem splitChunksAnn_restore (codeRanges : List (Nat × Nat)) (maxLength : Nat)
    (hL : 13 ≤ maxLength) :
    ∀ fuel remaining offset inCode, remaining.length < fuel →
      ((splitChunksAnn codeRanges maxLength fuel remaining offset inCode).map
        restoreChunk).flatten = remaining := by
  intro fuel
  induction fuel with
  | zero => intro remaining offset inCode hf; omega
  | succ fuel ih =>
    intro remaining offset inCode hf
    by_cases hemp : remaining.isEmpty = true
    · simp [splitChunksAnn, hemp, List.isEmpty_iff.mp hemp]
    · by_cases hlen : remaining.length ≤ maxLength - (if inCode = true then 4 else 0)
      · simp [splitChunksAnn, hemp, hlen, restoreChunk]
      · have hc1 : (if inCode = true then 4 else 0) ≤ 4 := by split <;> omega
        cases hnl : _find_safe_newline remaining
          (maxLength - (if inCode = true then 4 else 0)) codeRanges offset with
        | some p =>
          obtain ⟨hp1, hp2, hp3⟩ :=
            find_safe_newline_spec remaining _ codeRanges offset p hnl
          have hrec := ih (remaining.drop (p + 1)) (offset + (p + 1)) false
            (by simp only [List.length_drop]; omega)
          simp [splitChunksAnn, hemp, hlen, hnl, restoreChunk, hrec]
          exact take_cons_drop remaining p '\n' hp3
        | none =>
          by_cases hwsc : _is_inside_code_block
            (offset + min (maxLength - (if inCode = true then 4 else 0)) remaining.length)
            codeRanges = true
          · have hsp := forcedSplitPos_pos remaining
              (maxLength - (if inCode = true then 4 else 0) - 4) (by omega)
            have hrec := ih
              (remaining.drop (forcedSplitPos remaining
                (maxLength - (if inCode = true then 4 else 0) - 4)))
              (offset + forcedSplitPos remaining
                (maxLength - (if inCode = true then 4 else 0) - 4)) true
              (by simp only [List.length_drop]; omega)
            simp [splitChunksAnn, hemp, hlen, hnl, hwsc, restoreChunk, hrec]
          · have hsp := forcedSplitPos_pos remaining
              (maxLength - (if inCode = true then 4 else 0)) (by omega)
            have hrec := ih
              (remaining.drop (forcedSplitPos remaining
                (maxLength - (if inCode = true then 4 else 0))))
              (offset + forcedSplitPos remaining
                (maxLength - (if inCode = true then 4 else 0))) false
              (by simp only [List.length_drop]; omega)
            simp [splitChunksAnn, hemp, hlen, hnl, hwsc, restoreChunk, hrec]

/-! ## Helper lemmas about the escaper -/

theorem slice_append_drop (t : List Char) (lo hi : Nat) (h : lo ≤ hi) :
    (t.take hi).drop lo ++ t.drop hi = t.drop lo := by
  by_cases hlo : lo ≤ t.length
  · conv_rhs => rw [← List.take_append_drop hi t]
    rw [List.drop_append_of_le_length (by simp only [List.length_take]; omega)]
  · have h1 : t.drop lo = [] := List.drop_eq_nil_of_le (by omega)
    have h2 : t.drop hi = [] := List.drop_eq_nil_of_le (by omega)
    have h3 : (t.take hi).drop lo = [] :=
      List.drop_eq_nil_of_le (by simp only [List.length_take]; omega)
    simp [h1, h2, h3]

theorem codeSplitAux_flatten :
    ∀ fuel (t : List Char), t.length < fuel → (codeSplitAux fuel t).flatten = t := by
  intro fuel
  induction fuel with
  | zero => intro t ht; omega
  | succ fuel ih =>
    intro t ht
    simp only [codeSplitAux]
    cases hspan : findCodeSpanFrom t 0 with
    | none => simp [hspan]
    | some se =>
      obtain ⟨s, e⟩ := se
      obtain ⟨hs0, hse, hel⟩ := findCodeSpanFrom_spec t 0 s e hspan
      have hrec := ih (t.drop e) (by simp only [List.length_drop]; omega)
      simp only [hspan, List.flatten_cons, hrec]
      rw [slice_append_drop t s e (by omega), List.take_append_drop]

theorem codeSplit_flatten (t : List Char) : (codeSplit t).flatten = t :=
  codeSplitAux_flatten (t.length + 1) t (by omega)

theorem pyReplaceChar_append (c : Char) (r a b : List Char) :
    pyReplaceChar c r (a ++ b) = pyReplaceChar c r a ++ pyReplaceChar c r b := by
  induction a with
  | nil => simp [pyReplaceChar]
  | cons x xs ih => simp [pyReplaceChar, ih]

theorem escape_text_amp (s : List Char) :
    _escape_text ('&' :: s) = "&amp;".toList ++ _escape_text s := by
  have h0 : pyReplaceChar '&' ("&amp;".toList) ('&' :: s) =
      "&amp;".toList ++ pyReplaceChar '&' ("&amp;".toList) s := by
    rw [pyReplaceChar, if_pos rfl]
  simp only [_escape_text]
  rw [h0, pyReplaceChar_append, pyReplaceChar_append]
  congr 1

theorem escape_text_lt (s : List Char) :
    _escape_text ('<' :: s) = "&lt;".toList ++ _escape_text s := by
  have h0 : pyReplaceChar '&' ("&amp;".toList) ('<' :: s) =
      '<' :: pyReplaceChar '&' ("&amp;".toList) s := by
    rw [pyReplaceChar, if_neg (by decide)]
    rfl
  have h1 : pyReplaceChar '<' ("&lt;".toList) ('<' :: pyReplaceChar '&' ("&amp;".toList) s) =
      "&lt;".toList ++ pyReplaceChar '<' ("&lt;".toList) (pyReplaceChar '&' ("&amp;".toList) s) := by
    rw [pyReplaceChar, if_pos rfl]
  simp only [_escape_text]
  rw [h0, h1, pyReplaceChar_append]
  congr 1

theorem escape_text_gt (s : List Char) :
    _escape_text ('>' :: s) = "&gt;".toList ++ _escape_text s := by
  have h0 : pyReplaceChar '&' ("&amp;".toList) ('>' :: s) =
      '>' :: pyReplaceChar '&' ("&amp;".toList) s := by
    rw [pyReplaceChar, if_neg (by decide)]
    rfl
  have h1 : pyReplaceChar '<' ("&lt;".toList) ('>' :: pyReplaceChar '&' ("&amp;".toList) s) =
      '>' :: pyReplaceChar '<' ("&lt;".toList) (pyReplaceChar '&' ("&amp;".toList) s) := by
    rw [pyReplaceChar, if_neg (by decide)]
    rfl
  have h2 : pyReplaceChar '>' ("&gt;".toList)
      ('>' :: pyReplaceChar '<' ("&lt;".toList) (pyReplaceChar '&' ("&amp;".toList) s)) =
      "&gt;".toList ++ pyReplaceChar '>' ("&gt;".toList)
        (pyReplaceChar '<' ("&lt;".toList) (pyReplaceChar '&' ("&amp;".toList) s)) := by
    rw [pyReplaceChar, if_pos rfl]
  simp only [_escape_text]
  rw [h0, h1, h2]

theorem escape_text_other (c : Char) (s : List Char) (h1 : c ≠ '&') (h2 : c ≠ '<')
    (h3 : c ≠ '>') : _escape_text (c :: s) = c :: _escape_text s := by
  have e0 : pyReplaceChar '&' ("&amp;".toList) (c :: s) =
      c :: pyReplaceChar '&' ("&amp;".toList) s := by
    rw [pyReplaceChar, if_neg h1]
    rfl
  have e1 : ∀ x, pyReplaceChar '<' ("&lt;".toList) (c :: x) =
      c :: pyReplaceChar '<' ("&lt;".toList) x := by
    intro x
    rw [pyReplaceChar, if_neg h2]
    rfl
  have e2 : ∀ x, pyReplaceChar '>' ("&gt;".toList) (c :: x) =
      c :: pyReplaceChar '>' ("&gt;".toList) x := by
    intro x
    rw [pyReplaceChar, if_neg h3]
    rfl
  simp only [_escape_text]
  rw [e0, e1, e2]

theorem isPrefixOf_append_self (l x : List Char) : List.isPrefixOf l (l ++ x) = true :=
  List.isPrefixOf_iff_prefix.mpr (List.prefix_append l x)

theorem properlyEscaped_amp (x : List Char) (h : properlyEscaped x = true) :
    properlyEscaped ("&amp;".toList ++ x) = true := by
  rw [show ("&amp;".toList : List Char) = '&' :: ("amp;".toList) from rfl]
  rw [List.cons_append, properlyEscaped]
  rw [if_neg (by decide), if_neg (by decide), if_pos rfl,
    if_pos (isPrefixOf_append_self _ x)]
  rw [show (4 : Nat) = ("amp;".toList : List Char).length from rfl, List.drop_left]
  exact h

theorem properlyEscaped_lt (x : List Char) (h : properlyEscaped x = true) :
    properlyEscaped ("&lt;".toList ++ x) = true := by
  rw [show ("&lt;".toList : List Char) = '&' :: ("lt;".toList) from rfl]
  rw [List.cons_append, properlyEscaped]
  rw [if_neg (by decide), if_neg (by decide), if_pos rfl]
  rw [if_neg (by
    rw [show ("lt;".toList : List Char) ++ x = 'l' :: ("t;".toList ++ x) from rfl]
    simp [List.isPrefixOf])]
  rw [if_pos (isPrefixOf_append_self _ x)]
  rw [show (3 : Nat) = ("lt;".toList : List Char).length from rfl, List.drop_left]
  exact h

theorem properlyEscaped_gt (x : List Char) (h : properlyEscaped x = true) :
    properlyEscaped ("&gt;".toList ++ x) = true := by
  rw [show ("&gt;".toList : List Char) = '&' :: ("gt;".toList) from rfl]
  rw [List.cons_append, properlyEscaped]
  rw [if_neg (by decide), if_neg (by decide), if_pos rfl]
  rw [if_neg (by
    rw [show ("gt;".toList : List Char) ++ x = 'g' :: ("t;".toList ++ x) from rfl]
    simp [List.isPrefixOf])]
  rw [if_neg (by
    rw [show ("gt;".toList : List Char) ++ x = 'g' :: ("t;".toList ++ x) from rfl]
    simp [List.isPrefixOf])]
  rw [if_pos (isPrefixOf_append_self _ x)]
  rw [show (3 : Nat) = ("gt;".toList : List Char).length from rfl, List.drop_left]
  exact h

theorem properlyEscaped_safe_cons (c : Char) (x : List Char) (h1 : c ≠ '<')
    (h2 : c ≠ '>') (h3 : c ≠ '&') (h : properlyEscaped x = true) :
    properlyEscaped (c :: x) = true := by
  rw [properlyEscaped, if_neg h1, if_neg h2, if_neg h3]
  exact h

theorem escape_text_properlyEscaped (s : List Char) :
    properlyEscaped (_escape_text s) = true := by
  induction s with
  | nil => simp [_escape_text, pyReplaceChar, properlyEscaped]
  | cons c rest ih =>
    by_cases h1 : c = '&'
    · subst h1; rw [escape_text_amp]; exact properlyEscaped_amp _ ih
    · by_cases h2 : c = '<'
      · subst h2; rw [escape_text_lt]; exact properlyEscaped_lt _ ih
      · by_cases h3 : c = '>'
        · subst h3; rw [escape_text_gt]; exact properlyEscaped_gt _ ih
        · rw [escape_text_other c rest h1 h2 h3]
          exact properlyEscaped_safe_cons c _ h2 h3 h1 ih

theorem escapeNonCodeAux_eq_segs (text : List Char) :
    ∀ fuel pos, escapeNonCodeAux text fuel pos =
      ((escapeSegsAux text fuel pos).map renderEscSeg).flatten := by
  intro fuel
  induction fuel with
  | zero => intro pos; rfl
  | succ fuel ih =>
    intro pos
    by_cases hp : text.length ≤ pos
    · simp [escapeNonCodeAux, escapeSegsAux, hp]
    · cases ho : findCharFrom '<' text pos with
      | none => simp [escapeNonCodeAux, escapeSegsAux, hp, ho, renderEscSeg]
      | some openPos =>
        cases hpi : findCharFrom '|' text (openPos + 1) with
        | some pipePos =>
          cases hcl : findCharFrom '>' text (openPos + 1) with
          | some closePos =>
            by_cases hlt : pipePos < closePos
            · cases hfc : rfindCharRange '>' text (pipePos + 1)
                (findNextLinkOpen text (pipePos + 1)) with
              | some finalClose =>
                simp [escapeNonCodeAux, escapeSegsAux, hp, ho, hpi, hcl, hlt, hfc,
                  renderEscSeg, ih]
              | none =>
                simp [escapeNonCodeAux, escapeSegsAux, hp, ho, hpi, hcl, hlt, hfc,
                  renderEscSeg, ih]
            · by_cases hsc : startsWithLinkScheme
                ((text.take closePos).drop (openPos + 1)) = true
              · simp [escapeNonCodeAux, escapeSegsAux, hp, ho, hpi, hcl, hlt, hsc,
                  renderEscSeg, ih]
              · simp [escapeNonCodeAux, escapeSegsAux, hp, ho, hpi, hcl, hlt, hsc,
                  renderEscSeg, ih]
          | none =>
            simp [escapeNonCodeAux, escapeSegsAux, hp, ho, hpi, hcl, renderEscSeg, ih]
        | none =>
          cases hcl : findCharFrom '>' text (openPos + 1) with
          | some closePos =>
            by_cases hsc : startsWithLinkScheme
              ((text.take closePos).drop (openPos + 1)) = true
            · simp [escapeNonCodeAux, escapeSegsAux, hp, ho, hpi, hcl, hsc,
                renderEscSeg, ih]
            · simp [escapeNonCodeAux, escapeSegsAux, hp, ho, hpi, hcl, hsc,
                renderEscSeg, ih]
          | none =>
            simp [escapeNonCodeAux, escapeSegsAux, hp, ho, hpi, hcl, renderEscSeg, ih]

theorem drop_cons_of_get (l : List Char) (n : Nat) (c : Char) (h : l.get? n = some c) :
    l.drop n = c :: l.drop (n + 1) := by
  have hlt : n < l.length := by
    by_contra hge
    rw [List.get?_eq_none.mpr (by omega)] at h
    exact absurd h (by simp)
  have h3 : l.get ⟨n, hlt⟩ = c := by
    have h2 := List.get?_eq_get hlt
    rw [h] at h2
    injection h2.symm
  rw [List.drop_eq_getElem_cons hlt, ← h3]
  simp

theorem escapeSegsAux_src (text : List Char) :
    ∀ fuel pos, text.length - pos < fuel →
      ((escapeSegsAux text fuel pos).map srcEscSeg).flatten = text.drop pos := by
  intro fuel
  induction fuel with
  | zero => intro pos h; omega
  | succ fuel ih =>
    intro pos hfuel
    by_cases hp : text.length ≤ pos
    · simp [escapeSegsAux, hp, List.drop_eq_nil_of_le hp]
    · cases ho : findCharFrom '<' text pos with
      | none => simp [escapeSegsAux, hp, ho, srcEscSeg]
      | some openPos =>
        obtain ⟨ho1, ho2, ho3⟩ := findCharFrom_spec '<' text pos openPos ho
        have hplain : (((EscSeg.plain ((text.take openPos).drop pos) :: EscSeg.plain ['<'] ::
            escapeSegsAux text fuel (openPos + 1)).map srcEscSeg).flatten : List Char) =
            text.drop pos := by
          have hrec := ih (openPos + 1) (by omega)
          simp only [List.map_cons, List.flatten_cons, srcEscSeg, hrec,
            List.singleton_append]
          rw [← drop_cons_of_get text openPos '<' ho3]
          exact slice_append_drop text pos openPos ho1
        have hbare : ∀ closePos, openPos + 1 ≤ closePos → closePos < text.length →
            (((EscSeg.plain ((text.take openPos).drop pos) ::
              EscSeg.bare ((text.take (closePos + 1)).drop openPos) ::
              escapeSegsAux text fuel (closePos + 1)).map srcEscSeg).flatten : List Char) =
            text.drop pos := by
          intro closePos hcp1 hcp2
          have hrec := ih (closePos + 1) (by omega)
          simp only [List.map_cons, List.flatten_cons, srcEscSeg, hrec]
          conv_rhs => rw [← slice_append_drop text pos openPos ho1]
          conv_rhs => rw [← slice_append_drop text openPos (closePos + 1) (by omega)]
        cases hpi : findCharFrom '|' text (openPos + 1) with
        | some pipePos =>
          obtain ⟨hpi1, hpi2, hpi3⟩ := findCharFrom_spec '|' text (openPos + 1) pipePos hpi
          cases hcl : findCharFrom '>' text (openPos + 1) with
          | some closePos =>
            obtain ⟨hcl1, hcl2, hcl3⟩ := findCharFrom_spec '>' text (openPos + 1) closePos hcl
            by_cases hlt : pipePos < closePos
            · cases hfc : rfindCharRange '>' text (pipePos + 1)
                (findNextLinkOpen text (pipePos + 1)) with
              | some finalClose =>
                obtain ⟨hfc1, hfc2, hfc3, hfc4⟩ := rfindCharRange_spec '>' text
                  (pipePos + 1) _ finalClose hfc
                have hstep : escapeSegsAux text (fuel + 1) pos =
                    EscSeg.plain ((text.take openPos).drop pos) ::
                    EscSeg.link ((text.take pipePos).drop (openPos + 1))
                      ((text.take finalClose).drop (pipePos + 1)) ::
                    escapeSegsAux text fuel (finalClose + 1) := by
                  simp [escapeSegsAux, hp, ho, hpi, hcl, hlt, hfc]
                have hrec := ih (finalClose + 1) (by omega)
                rw [hstep]
                simp only [List.map_cons, List.flatten_cons, srcEscSeg, hrec]
                conv_rhs => rw [← slice_append_drop text pos openPos ho1]
                conv_rhs => rw [drop_cons_of_get text openPos '<' ho3]
                conv_rhs => rw [← slice_append_drop text (openPos + 1) pipePos (by omega)]
                conv_rhs => rw [drop_cons_of_get text pipePos '|' hpi3]
                conv_rhs => rw [← slice_append_drop text (pipePos + 1) finalClose (by omega)]
                conv_rhs => rw [drop_cons_of_get text finalClose '>' hfc4]
                simp [List.append_assoc]
              | none =>
                have hstep : escapeSegsAux text (fuel + 1) pos =
                    EscSeg.plain ((text.take openPos).drop pos) :: EscSeg.plain ['<'] ::
                    escapeSegsAux text fuel (openPos + 1) := by
                  simp [escapeSegsAux, hp, ho, hpi, hcl, hlt, hfc]
                rw [hstep]
                exact hplain
            · by_cases hsc : startsWithLinkScheme
                ((text.take closePos).drop (openPos + 1)) = true
              · have hstep : escapeSegsAux text (fuel + 1) pos =
                    EscSeg.plain ((text.take openPos).drop pos) ::
                    EscSeg.bare ((text.take (closePos + 1)).drop openPos) ::
                    escapeSegsAux text fuel (closePos + 1) := by
                  simp [escapeSegsAux, hp, ho, hpi, hcl, hlt, hsc]
                rw [hstep]
                exact hbare closePos hcl1 hcl2
              · have hstep : escapeSegsAux text (fuel + 1) pos =
                    EscSeg.plain ((text.take openPos).drop pos) :: EscSeg.plain ['<'] ::
                    escapeSegsAux text fuel (openPos + 1) := by
                  simp [escapeSegsAux, hp, ho, hpi, hcl, hlt, hsc]
                rw [hstep]
                exact hplain
          | none =>
            have hstep : escapeSegsAux text (fuel + 1) pos =
                EscSeg.plain ((text.take openPos).drop pos) :: EscSeg.plain ['<'] ::
                escapeSegsAux text fuel (openPos + 1) := by
              simp [escapeSegsAux, hp, ho, hpi, hcl]
            rw [hstep]
            exact hplain
        | none =>
          cases hcl : findCharFrom '>' text (openPos + 1) with
          | some closePos =>
            obtain ⟨hcl1, hcl2, hcl3⟩ := findCharFrom_spec '>' text (openPos + 1) closePos hcl
            by_cases hsc : startsWithLinkScheme
              ((text.take closePos).drop (openPos + 1)) = true
            · have hstep : escapeSegsAux text (fuel + 1) pos =
                  EscSeg.plain ((text.take openPos).drop pos) ::
                  EscSeg.bare ((text.take (closePos + 1)).drop openPos) ::
                  escapeSegsAux text fuel (closePos + 1) := by
                simp [escapeSegsAux, hp, ho, hpi, hcl, hsc]
              rw [hstep]
              exact hbare closePos hcl1 hcl2
            · have hstep : escapeSegsAux text (fuel + 1) pos =
                  EscSeg.plain ((text.take openPos).drop pos) :: EscSeg.plain ['<'] ::
                  escapeSegsAux text fuel (openPos + 1) := by
                simp [escapeSegsAux, hp, ho, hpi, hcl, hsc]
              rw [hstep]
              exact hplain
          | none =>
            have hstep : escapeSegsAux text (fuel + 1) pos =
                EscSeg.plain ((text.take openPos).drop pos) :: EscSeg.plain ['<'] ::
                escapeSegsAux text fuel (openPos + 1) := by
              simp [escapeSegsAux, hp, ho, hpi, hcl]
            rw [hstep]
            exact hplain

/-! ## Helper lemmas about the orchestrator loop -/

theorem workerLoop_none_spec (decode : List Char → DecodeOutcome)
    (items : List (SlackMessage × ItemEnv)) :
    ∀ i elapsed succ err skip total,
      (workerLoop decode items none i elapsed succ err skip total).processed_count = total ∧
      (workerLoop decode items none i elapsed succ err skip total).success_count +
        (workerLoop decode items none i elapsed succ err skip total).error_count +
        (workerLoop decode items none i elapsed succ err skip total).skipped_count =
          succ + err + skip + items.length ∧
      (workerLoop decode items none i elapsed succ err skip total).timed_out = false ∧
      (workerLoop decode items none i elapsed succ err skip total).remaining_count = 0 := by
  induction items with
  | nil =>
    intro i elapsed succ err skip total
    simp [workerLoop]
  | cons item rest ih =>
    intro i elapsed succ err skip total
    obtain ⟨msg, env⟩ := item
    simp only [workerLoop, Bool.false_eq_true, if_false]
    cases processItem decode msg env with
    | success =>
      obtain ⟨a, b, c, d⟩ := ih (i + 1) (elapsed + env.duration) (succ + 1) err skip total
      exact ⟨a, by simp only [List.length_cons]; omega, c, d⟩
    | skipped =>
      obtain ⟨a, b, c, d⟩ := ih (i + 1) (elapsed + env.duration) succ err (skip + 1) total
      exact ⟨a, by simp only [List.length_cons]; omega, c, d⟩
    | errored =>
      obtain ⟨a, b, c, d⟩ := ih (i + 1) (elapsed + env.duration) succ (err + 1) skip total
      exact ⟨a, by simp only [List.length_cons]; omega, c, d⟩

theorem workerLoop_partition (decode : List Char → DecodeOutcome)
    (items : List (SlackMessage × ItemEnv)) :
    ∀ timeout i elapsed succ err skip total,
      i = succ + err + skip → total = i + items.length →
      (workerLoop decode items timeout i elapsed succ err skip total).success_count +
        (workerLoop decode items timeout i elapsed succ err skip total).error_count +
        (workerLoop decode items timeout i elapsed succ err skip total).skipped_count =
          (workerLoop decode items timeout i elapsed succ err skip total).processed_count ∧
      (workerLoop decode items timeout i elapsed succ err skip total).processed_count +
        (workerLoop decode items timeout i elapsed succ err skip total).remaining_count =
          total := by
  induction items with
  | nil =>
    intro timeout i elapsed succ err skip total hi htot
    simp only [workerLoop]
    simp only [List.length_nil] at htot
    omega
  | cons item rest ih =>
    intro timeout i elapsed succ err skip total hi htot
    obtain ⟨msg, env⟩ := item
    simp only [List.length_cons] at htot
    simp only [workerLoop]
    split
    · simp only
      omega
    · cases processItem decode msg env with
      | success =>
        exact ih timeout (i + 1) (elapsed + env.duration) (succ + 1) err skip total
          (by omega) (by omega)
      | skipped =>
        exact ih timeout (i + 1) (elapsed + env.duration) succ err (skip + 1) total
          (by omega) (by omega)
      | errored =>
        exact ih timeout (i + 1) (elapsed + env.duration) succ (err + 1) skip total
          (by omega) (by omega)

/-! ## Claim theorems -/

/-- C4: refuted of this snapshot.  The budget-only-at-boundaries half of
the claim does hold — whatever the budget, every iterated candidate is
resolved entirely before the next budget check: the three outcome counters
always sum to `processed_count` and `processed_count + remaining_count` is
always the batch size, so no candidate is ever counted partially (first
conjunct).  But the claimed scenario outcome is false of the code: the
orchestrator (`worker.py`, lines 157–159) passes the keyword argument
`hatebu_entry` to `fetch_and_summarize`, whose definition
(`summarizer.py`, lines 435–439) has no such parameter (second conjunct),
so argument binding raises `TypeError` inside the loop's `try` for every
URL-carrying candidate and a success is unrealizable.  In the
five-candidate, two-time-units-each, budget-one scenario (even with agent
and poster oracles that would succeed) the first item completes before the
budget check stops the batch — but as an error, not a success: the result
is `processed_count = 1`, `success_count = 0`, `error_count = 1`,
`timed_out = true`, `remaining_count = 4` (third conjunct), not the
claimed `success_count = 1` (fourth conjunct). -/
theorem worker_timeout_boundary_scenario :
    (∀ (decode : List Char → DecodeOutcome) (items : List (SlackMessage × ItemEnv))
        (timeout : Option Nat),
      (enrich_and_reply_pending_messages decode items timeout).success_count +
        (enrich_and_reply_pending_messages decode items timeout).error_count +
        (enrich_and_reply_pending_messages decode items timeout).skipped_count =
          (enrich_and_reply_pending_messages decode items timeout).processed_count ∧
      (enrich_and_reply_pending_messages decode items timeout).processed_count +
        (enrich_and_reply_pending_messages decode items timeout).remaining_count =
          items.length) ∧
    agentCallRaisesTypeError = true ∧
    enrich_and_reply_pending_messages (fun _ => DecodeOutcome.exc)
      [(⟨"1".toList, "http://e/1".toList, 0⟩, ⟨2, true, true⟩),
       (⟨"2".toList, "http://e/2".toList, 0⟩, ⟨2, true, true⟩),
       (⟨"3".toList, "http://e/3".toList, 0⟩, ⟨2, true, true⟩),
       (⟨"4".toList, "http://e/4".toList, 0⟩, ⟨2, true, true⟩),
       (⟨"5".toList, "http://e/5".toList, 0⟩, ⟨2, true, true⟩)] (some 1) =
    { processed_count := 1, success_count := 0, error_count := 1, skipped_count := 0,
      timed_out := true, remaining_count := 4 } ∧
    enrich_and_reply_pending_messages (fun _ => DecodeOutcome.exc)
      [(⟨"1".toList, "http://e/1".toList, 0⟩, ⟨2, true, true⟩),
       (⟨"2".toList, "http://e/2".toList, 0⟩, ⟨2, true, true⟩),
       (⟨"3".toList, "http://e/3".toList, 0⟩, ⟨2, true, true⟩),
       (⟨"4".toList, "http://e/4".toList, 0⟩, ⟨2, true, true⟩),
       (⟨"5".toList, "http://e/5".toList, 0⟩, ⟨2, true, true⟩)] (some 1) ≠
    { processed_count := 1, success_count := 1, error_count := 0, skipped_count := 0,
      timed_out := true, remaining_count := 4 } := by
  refine ⟨fun decode items timeout => ?_, by decide, by decide, by decide⟩
  exact workerLoop_partition decode items timeout 0 0 0 0 0 items.length rfl (by omega)

/-- C5: refuted of this snapshot.  The isolation-and-partition half of the
claim does hold — a per-item exception is caught by the loop's `except`,
only `error_count` records it, and without a timeout the orchestrator
iterates all fetched candidates, `processed_count` equalling their number
and `success_count + error_count + skipped_count` partitioning it (first
conjunct).  But the claimed scenario outcome is false of the code: every
URL-carrying candidate raises `TypeError` at the `fetch_and_summarize`
call site (`worker.py` lines 157–159 pass `hatebu_entry=`, absent from the
callee's parameters, `summarizer.py` lines 435–439 — second conjunct), so
the posting stage is unreachable and the premise "the 2nd candidate errors
during posting" cannot even arise (the posting calls would themselves
raise `TypeError`, passing `blocks=` to a `post_thread_reply` without that
parameter — third conjunct).  The three-candidate scenario (agent oracles
succeeding, the 2nd poster failing) therefore yields
`processed_count = 3`, `success_count = 0`, `error_count = 3`,
`skipped_count = 0` (fourth conjunct), not the claimed
`success_count = 2`, `error_count = 1` (fifth conjunct). -/
theorem worker_error_isolation_partition :
    (∀ (decode : List Char → DecodeOutcome) (items : List (SlackMessage × ItemEnv)),
      (enrich_and_reply_pending_messages decode items none).processed_count = items.length ∧
      (enrich_and_reply_pending_messages decode items none).success_count +
        (enrich_and_reply_pending_messages decode items none).error_count +
        (enrich_and_reply_pending_messages decode items none).skipped_count = items.length ∧
      (enrich_and_reply_pending_messages decode items none).timed_out = false ∧
      (enrich_and_reply_pending_messages decode items none).remaining_count = 0) ∧
    agentCallRaisesTypeError = true ∧
    postCallRaisesTypeError = true ∧
    enrich_and_reply_pending_messages (fun _ => DecodeOutcome.exc)
      [(⟨"1".toList, "http://e/1".toList, 0⟩, ⟨1, true, true⟩),
       (⟨"2".toList, "http://e/2".toList, 0⟩, ⟨1, true, false⟩),
       (⟨"3".toList, "http://e/3".toList, 0⟩, ⟨1, true, true⟩)] none =
    { processed_count := 3, success_count := 0, error_count := 3, skipped_count := 0 } ∧
    enrich_and_reply_pending_messages (fun _ => DecodeOutcome.exc)
      [(⟨"1".toList, "http://e/1".toList, 0⟩, ⟨1, true, true⟩),
       (⟨"2".toList, "http://e/2".toList, 0⟩, ⟨1, true, false⟩),
       (⟨"3".toList, "http://e/3".toList, 0⟩, ⟨1, true, true⟩)] none ≠
    { processed_count := 3, success_count := 2, error_count := 1, skipped_count := 0 } := by
  refine ⟨fun decode items => ?_, by decide, by decide, by decide, by decide⟩
  have h := workerLoop_none_spec decode items 0 0 0 0 0 items.length
  simpa [enrich_and_reply_pending_messages] using h

/-- C6: `extract_urls` merges wrapped-notation and plain matches in start
offset order, drops plain matches starting inside a wrapped span,
deduplicates by string equality keeping first occurrences, and returns the
first URL as `main_url` and the rest, in order, as `supplementary_urls`;
empty text gives the empty result, and the returned URLs (main and
supplementary together) never contain a duplicate.  The three-URL plain
text gives primary `u1` and secondaries `u2, u3`; a plain URL inside a
wrapped link's label is not double-counted; a URL appearing wrapped and
again bare is deduplicated. -/
theorem extract_urls_ordered_dedup :
    (∀ message : SlackMessage, message.text = [] → extract_urls message = {}) ∧
    (∀ message : SlackMessage,
      ((extract_urls message).main_url.toList ++
        (extract_urls message).supplementary_urls).Nodup) ∧
    (∀ message : SlackMessage, (extract_urls message).main_url = none →
      (extract_urls message).supplementary_urls = []) ∧
    extract_urls ⟨[], "A http://u1 B http://u2 C http://u3".toList, 0⟩ =
      ⟨some ("http://u1".toList), ["http://u2".toList, "http://u3".toList]⟩ ∧
    extract_urls ⟨[], "<http://a|see http://b> http://c".toList, 0⟩ =
      ⟨some ("http://a".toList), ["http://c".toList]⟩ ∧
    extract_urls ⟨[], "<https://x.com/p|label> https://x.com/p and https://y.com".toList, 0⟩ =
      ⟨some ("https://x.com/p".toList), ["https://y.com".toList]⟩ := by
  have hnodup : ∀ text : List Char, (extractedUrlList text).Nodup := by
    intro text
    rw [extractedUrlList]
    exact dedupKeepFirst_nodup _ _
  refine ⟨?_, ?_, ?_, by decide, by decide, by decide⟩
  · intro message htext
    rw [extract_urls, htext]
    simp
  · intro message
    rw [extract_urls]
    split
    · simp
    · have hnd := hnodup message.text
      cases hu : extractedUrlList message.text with
      | nil => simp [hu]
      | cons u rest =>
        rw [hu] at hnd
        simp only [hu]
        simpa using hnd
  · intro message
    rw [extract_urls]
    split
    · intro _; rfl
    · cases hu : extractedUrlList message.text with
      | nil => intro _; rfl
      | cons u rest => simp [hu]

/-- C6 witness: the empty text yields the empty result; a URL appearing in
both notations yields duplicate-free output; a text whose only URL match
is absent yields no supplementaries. -/
theorem extract_urls_ordered_dedup_witness :
    extract_urls ⟨[], [], 0⟩ = {} ∧
    ((extract_urls ⟨[], "see <http://a> http://a".toList, 0⟩).main_url.toList ++
      (extract_urls ⟨[], "see <http://a> http://a".toList, 0⟩).supplementary_urls).Nodup ∧
    (extract_urls ⟨[], "plain words".toList, 0⟩).supplementary_urls = [] :=
  ⟨extract_urls_ordered_dedup.1 ⟨[], [], 0⟩ rfl,
   extract_urls_ordered_dedup.2.1 ⟨[], "see <http://a> http://a".toList, 0⟩,
   extract_urls_ordered_dedup.2.2.1 ⟨[], "plain words".toList, 0⟩ (by decide)⟩

/-- C7: `resolve_url` is the identity on every URL that is not an eligible
Google-News redirect; for an eligible URL it is the identity whenever the
decode oracle times out, raises, or returns a failure (status false or a
missing/empty decoded destination), and returns precisely the decoded
destination on a successful decode. -/
theorem resolve_url_fail_open (decode : List Char → DecodeOutcome) (url : List Char) :
    (is_google_news_url url = false → resolve_url decode url = url) ∧
    (decode url = .timeout → resolve_url decode url = url) ∧
    (decode url = .exc → resolve_url decode url = url) ∧
    (∀ st du, decode url = .ok st du → (st = false ∨ du = none ∨ du = some []) →
      resolve_url decode url = url) ∧
    (∀ d, is_google_news_url url = true → decode url = .ok true (some d) → d ≠ [] →
      resolve_url decode url = d) := by
  refine ⟨?_, ?_, ?_, ?_, ?_⟩
  · intro hg; rw [resolve_url, hg]; simp
  · intro hd
    rw [resolve_url, hd]
    split <;> rfl
  · intro hd
    rw [resolve_url, hd]
    split <;> rfl
  · intro st du hd hfail
    rw [resolve_url, hd]
    split
    · rfl
    · rcases hfail with h | h | h
      · subst h
        cases du with
        | none => rfl
        | some d => simp
      · subst h; rfl
      · subst h; simp
  · intro d hg hd hne
    rw [resolve_url, hg, hd]
    simp [List.isEmpty_iff, hne]

/-- C7 witness: a successful decode of an eligible Google-News URL returns
the decoded destination, and a non-eligible URL passes through a
timing-out decoder unchanged. -/
theorem resolve_url_fail_open_witness :
    resolve_url (fun _ => DecodeOutcome.ok true (some ("https://example.com/article".toList)))
      ("https://news.google.com/rss/articles/x".toList) =
      "https://example.com/article".toList ∧
    resolve_url (fun _ => DecodeOutcome.timeout) ("http://example.com/a".toList) =
      "http://example.com/a".toList :=
  ⟨(resolve_url_fail_open (fun _ => DecodeOutcome.ok true
      (some ("https://example.com/article".toList)))
      ("https://news.google.com/rss/articles/x".toList)).2.2.2.2
      ("https://example.com/article".toList) (by decide) rfl (by decide),
   (resolve_url_fail_open (fun _ => DecodeOutcome.timeout)
      ("http://example.com/a".toList)).2.1 rfl⟩

/-- C8: `resolve_urls` is the identity when there is no main URL; when
there is one, the returned main URL is its resolution, and the returned
supplementary list is duplicate-free, never contains the resolved main
URL, and is a sublist (first occurrences, original order) of the
pointwise-resolved input supplementaries — so the no-duplicates invariant
holds even when distinct inputs resolve to the same destination. -/
theorem resolve_urls_dedup_invariant (decode : List Char → DecodeOutcome)
    (e : ExtractedUrls) :
    (e.main_url = none → resolve_urls decode e = e) ∧
    (∀ mu, e.main_url = some mu →
      (resolve_urls decode e).main_url = some (resolve_url decode mu) ∧
      (resolve_urls decode e).supplementary_urls.Nodup ∧
      resolve_url decode mu ∉ (resolve_urls decode e).supplementary_urls ∧
      (resolve_urls decode e).supplementary_urls.Sublist
        (e.supplementary_urls.map (resolve_url decode))) := by
  constructor
  · intro hnone
    rw [resolve_urls, hnone]
  · intro mu hmu
    rw [resolve_urls, hmu]
    refine ⟨rfl, dedupKeepFirst_nodup _ _, ?_, dedupKeepFirst_sublist _ _⟩
    intro hmem
    exact dedupKeepFirst_not_mem_seen [resolve_url decode mu]
      (e.supplementary_urls.map (resolve_url decode)) (resolve_url decode mu) hmem
      (List.mem_singleton.mpr rfl)

/-- C8 witness: two distinct eligible URLs resolving to the same
destination as the main URL are both dropped from the secondaries, and a
repeated plain secondary is kept only once. -/
theorem resolve_urls_dedup_invariant_witness :
    (resolve_urls (fun _ => DecodeOutcome.ok true (some ("https://d.com/x".toList)))
        ⟨some ("https://news.google.com/rss/articles/g1".toList),
         [("https://news.google.com/rss/articles/g2".toList),
          ("http://plain.com/p".toList),
          ("http://plain.com/p".toList)]⟩).main_url =
      some ("https://d.com/x".toList) ∧
    (resolve_urls (fun _ => DecodeOutcome.ok true (some ("https://d.com/x".toList)))
        ⟨some ("https://news.google.com/rss/articles/g1".toList),
         [("https://news.google.com/rss/articles/g2".toList),
          ("http://plain.com/p".toList),
          ("http://plain.com/p".toList)]⟩).supplementary_urls.Nodup ∧
    ("https://d.com/x".toList) ∉
      (resolve_urls (fun _ => DecodeOutcome.ok true (some ("https://d.com/x".toList)))
        ⟨some ("https://news.google.com/rss/articles/g1".toList),
         [("https://news.google.com/rss/articles/g2".toList),
          ("http://plain.com/p".toList),
          ("http://plain.com/p".toList)]⟩).supplementary_urls := by
  have h := (resolve_urls_dedup_invariant
    (fun _ => DecodeOutcome.ok true (some ("https://d.com/x".toList)))
    ⟨some ("https://news.google.com/rss/articles/g1".toList),
     [("https://news.google.com/rss/articles/g2".toList),
      ("http://plain.com/p".toList),
      ("http://plain.com/p".toList)]⟩).2
    ("https://news.google.com/rss/articles/g1".toList) rfl
  obtain ⟨h1, h2, h3, _⟩ := h
  have hres : resolve_url (fun _ => DecodeOutcome.ok true (some ("https://d.com/x".toList)))
      ("https://news.google.com/rss/articles/g1".toList) = "https://d.com/x".toList := by
    decide
  exact ⟨by rw [h1, hres], h2, by rw [← hres]; exact h3⟩

/-- C9: the escaping pass replaces the three reserved characters only
outside protected spans.  Formally: the code-span split partitions the
converted text — `codeSplit`'s parts flatten back to the input — and
`_escape_slack_special_chars` is, by construction, the join that emits the
odd (matched code-span) parts verbatim and escapes only the even parts;
`_escape_text` output is fully escaped (no raw `<` or `>`, every `&`
opening one of the three entities); and the non-code escaper decomposes
its input into plain runs, pipe-link tokens and bare-link tokens exactly
as the code parses them (a pipe link extends to the last `>` before the
next link opener), emitting every plain run and every link label through
`_escape_text` while keeping every link destination and every bare link
token verbatim. -/
theorem escape_outside_protected_spans :
    (∀ t : List Char, (codeSplit t).flatten = t ∧
      _escape_slack_special_chars t =
        (((codeSplit t).enum).map
          (fun p => if p.1 % 2 = 1 then p.2 else _escape_non_code_part p.2)).flatten) ∧
    (∀ s : List Char, properlyEscaped (_escape_text s) = true) ∧
    (∀ t : List Char, ∃ segs : List EscSeg,
      _escape_non_code_part t = (segs.map renderEscSeg).flatten ∧
      (segs.map srcEscSeg).flatten = t) := by
  refine ⟨fun t => ⟨codeSplit_flatten t, rfl⟩, escape_text_properlyEscaped, fun t => ?_⟩
  refine ⟨escapeSegsAux t (t.length + 1) 0, ?_, ?_⟩
  · rw [_escape_non_code_part]
    exact escapeNonCodeAux_eq_segs t (t.length + 1) 0
  · have h := escapeSegsAux_src t (t.length + 1) 0 (by omega)
    simpa using h

/-- C10: resolution never removes a present main URL — `resolve_urls`
returns `some` main URL whenever its input has one — and consequently the
orchestrator's second skip branch (testing `resolved.main_url is None`
after a successful extraction) is unreachable: an item is skipped only
when extraction itself finds no main URL. -/
theorem resolve_never_drops_main :
    (∀ (decode : List Char → DecodeOutcome) (e : ExtractedUrls) (mu : List Char),
      e.main_url = some mu →
      (resolve_urls decode e).main_url = some (resolve_url decode mu)) ∧
    (∀ (decode : List Char → DecodeOutcome) (message : SlackMessage) (env : ItemEnv),
      processItem decode message env = .skipped →
      (extract_urls message).main_url = none) := by
  have hmain : ∀ (decode : List Char → DecodeOutcome) (e : ExtractedUrls) (mu : List Char),
      e.main_url = some mu →
      (resolve_urls decode e).main_url = some (resolve_url decode mu) := by
    intro decode e mu hmu
    rw [resolve_urls, hmu]
  refine ⟨hmain, ?_⟩
  intro decode message env hskip
  rw [processItem] at hskip
  cases hex : (extract_urls message).main_url with
  | none => rfl
  | some mu =>
    rw [hex] at hskip
    simp only at hskip
    rw [hmain decode (extract_urls message) mu hex] at hskip
    simp only at hskip
    split at hskip
    all_goals (try split at hskip)
    all_goals (try split at hskip)
    all_goals (try split at hskip)
    all_goals cases hskip

/-- C10 witness: a message without any URL is skipped with extraction
finding no main URL, and a concrete resolution keeps the main URL
present. -/
theorem resolve_never_drops_main_witness :
    (extract_urls ⟨[], "no links here".toList, 0⟩).main_url = none ∧
    (resolve_urls (fun _ => DecodeOutcome.timeout)
      ⟨some ("http://a.com/x".toList), []⟩).main_url =
      some (resolve_url (fun _ => DecodeOutcome.timeout) ("http://a.com/x".toList)) :=
  ⟨resolve_never_drops_main.2 (fun _ => DecodeOutcome.timeout)
      ⟨[], "no links here".toList, 0⟩ ⟨0, true, true⟩ (by decide),
   resolve_never_drops_main.1 (fun _ => DecodeOutcome.timeout)
      ⟨some ("http://a.com/x".toList), []⟩ ("http://a.com/x".toList) rfl⟩

/-- C1: for every input text and maximum chunk length of at least 13
(the Python default is 3000), the chunker's output arises from a list of
instrumented chunks by rendering — prepending the injected fence-reopen
marker and appending the injected fence-close marker — and concatenating
those chunks' source slices, re-inserting the newline character consumed
at each newline split, reproduces the original text exactly.  (Below 13
the Python loop can stop making progress and never terminate, so the
round-trip claim concerns the terminating regime; the default is far
above the bound.) -/
theorem split_mrkdwn_roundtrip (text : List Char) (maxLength : Nat)
    (hL : 13 ≤ maxLength) :
    ∃ anns : List AnnChunk,
      _split_mrkdwn_text text maxLength = anns.map renderChunk ∧
      (anns.map restoreChunk).flatten = text := by
  rw [_split_mrkdwn_text]
  split
  · exact ⟨[⟨false, text, false, false⟩], by simp [renderChunk], by simp [restoreChunk]⟩
  · exact ⟨splitChunksAnn (_find_code_block_ranges text) maxLength (text.length + 1)
        text 0 false,
      splitChunksStr_eq_render _ maxLength (text.length + 1) text 0 false,
      splitChunksAnn_restore _ maxLength hL (text.length + 1) text 0 false (by omega)⟩

/-- C1 witness: the round trip at a concrete text that the chunker cuts
into several chunks, closing and reopening a fence. -/
theorem split_mrkdwn_roundtrip_witness :
    ∃ anns : List AnnChunk,
      _split_mrkdwn_text ("abc\ndefghi\n```\ncode goes here\n```\nxyz".toList) 13 =
        anns.map renderChunk ∧
      (anns.map restoreChunk).flatten =
        "abc\ndefghi\n```\ncode goes here\n```\nxyz".toList :=
  split_mrkdwn_roundtrip ("abc\ndefghi\n```\ncode goes here\n```\nxyz".toList) 13
    (by decide)

/-- C2: evaluation of the chunker at the failing input.  When the forced
split position lands inside a wrapped-link token that starts the chunk,
`_split_mrkdwn_text` moves the split past the link's closing `>` with no
length check (`summarizer.py`, lines 310–313), so the emitted chunk
exceeds the maximum length: the 26-character single-link text under
`max_length = 10` comes back as one 26-character chunk.  (The same branch
fires at the default `max_length = 3000` for a link longer than 3000
characters — the input of the repository's own test
`test_oversized_slack_link_force_split_within_limit`, which requires
every chunk to stay within 3000 characters and therefore fails on this
code.) -/
theorem split_mrkdwn_oversized_link_chunk :
    _split_mrkdwn_text ("<http://aaaaaaaaaaaaaaaaa>".toList) 10 =
      ["<http://aaaaaaaaaaaaaaaaa>".toList] ∧
    ∃ c ∈ _split_mrkdwn_text ("<http://aaaaaaaaaaaaaaaaa>".toList) 10,
      10 < c.length := by
  constructor
  · decide
  · decide

/-- C3: evaluation of the chunker at the failing input.  The
newline-preferring split path (`summarizer.py`, lines 281–291) consults
only the code-block ranges, never `_is_inside_slack_link`, so a newline
inside a wrapped-link token's label is happily chosen as a split point:
on the text below with `max_length = 20` the first chunk ends at position
11 — strictly inside the single wrapped-link token, which spans positions
0 to 14 — cutting the token in half, although the chunker's own
docstring promises that a Slack link is never split mid-token.  (The
entity half of the claim does hold; see the C1 development's
`adjustEntityLoop` lemmas.) -/
theorem split_mrkdwn_newline_splits_link :
    _split_mrkdwn_text ("<http://q|A\nB>cccccccccc".toList) 20 =
      ["<http://q|A".toList, "B>cccccccccc".toList] ∧
    ∃ m ∈ finditer matchSlackUrlAt ("<http://q|A\nB>cccccccccc".toList),
      m.start < 11 ∧ 11 < m.stop := by
  constructor
  · decide
  · decide

end SlackFeedEnricher
